import Mathlib

/-!
# Verification of the Boost.Pool chunk allocator

A shallow embedding of `boost::simple_segregated_storage`, `boost::pool` and
`boost::object_pool` (files `simple_segregated_storage.hpp`, `pool.hpp`,
`object_pool.hpp`), together with theorems settling the specification claims.

Modelling conventions:
* Addresses are `Nat`; the null pointer is `0`.
* The machine is LP64: `sizeof(void *) = sizeof(size_type) = 8`, so the
  compile-time constant `ct_lcm<sizeof(size_type), sizeof(void *)>::value = 8`
  and the per-block overhead (next-pointer area plus next-size area) is `16`.
* `size_type` (`std::size_t`) values are modelled as `Nat`; none of the claims
  under study concerns wrap-around behaviour, and all witnesses are small.
* The intrusive singly-linked free list (next pointers stored in the first
  word of each free chunk) is modelled at two levels:
  - a raw-heap level (`Heap`) for `segregate`, which is the routine that
    actually writes the embedded links, and
  - a list-of-addresses level for the remaining routines, where the state of
    the free list is the sequence of chunk addresses visited from `first`.
  The bridge theorem for `segregate` shows that walking the links written by
  the raw-heap routine visits exactly the ascending chunk sequence used by the
  list-level model.
* The block list, threaded through per-region trailers in the C++ code, is
  modelled as a `List Block` in block-list order; trailer reads/writes become
  list operations with the same control flow.
* The user allocator is modelled per grow call by an `Option Nat` argument:
  `none` means the allocator returned null (out of memory), `some p` means it
  returned the region base address `p`.
-/

namespace BoostPool

/-- `sizeof(void *)` on the modelled (LP64) platform. -/
def sizeofVoidPtr : Nat := 8

/-- `sizeof(size_type)` (`std::size_t`) on the modelled platform. -/
def sizeofSizeT : Nat := 8

/-- `details::pool::ct_lcm<sizeof(size_type), sizeof(void *)>::value`. -/
def ctLcmVal : Nat := Nat.lcm sizeofSizeT sizeofVoidPtr

/-- Per-block overhead: next-pointer area plus next-size field
(`ct_lcm + sizeof(size_type)`), the trailer `T` of the spec. -/
def podOverhead : Nat := ctLcmVal + sizeofSizeT

/-- `pool::min_alloc_size = ct_lcm<sizeof(void *), sizeof(size_type)>::value`. -/
def minAllocSize : Nat := Nat.lcm sizeofVoidPtr sizeofSizeT

/-- `pool::alloc_size()`: the effective chunk (partition) size
`lcm(requested_size, min_alloc_size)`, the `P` of the spec. -/
def allocSize (requestedSize : Nat) : Nat := Nat.lcm requestedSize minAllocSize

/-- The ascending sequence of `n` chunk addresses starting at `base` with
stride `P`: `base, base + P, …, base + (n-1)·P`. -/
def chunkSeq (base n P : Nat) : List Nat := (List.range n).map (fun j => base + j * P)

/-! ## Raw-heap model of `simple_segregated_storage::segregate`

`segregate` is the one routine that writes the intrusive next links, iterating
backwards from the last full chunk.  We model the heap as a total map from
addresses to the pointer-sized word stored there. -/

/-- Raw heap: address to stored next-pointer word. -/
def Heap : Type := Nat → Nat

/-- Store word `v` at address `a` (the effect of `nextof(a) = v`). -/
def hwrite (h : Heap) (a v : Nat) : Heap := fun x => if x = a then v else h x

/-- Read the word at address `a` (the value of `nextof(a)`). -/
def hread (h : Heap) (a : Nat) : Nat := h a

/-- The backward loop of `segregate`: for `j = m-1` down to `0` it performs
`nextof(block + j·P) = block + (j+1)·P` (in the C++ code the iterations
`iter = old - P` down to `block` write `nextof(iter) = old` and the final
`nextof(block) = old` write is the `j = 0` instance). -/
def segregateLoop (h : Heap) (block P : Nat) : Nat → Heap
  | 0 => h
  | j + 1 => segregateLoop (hwrite h (block + j * P) (block + (j + 1) * P)) block P j

/-- `simple_segregated_storage::segregate(block, sz, partition_sz, end)`:
computes the last valid chunk `old = block + ((sz - partition_sz) / partition_sz)
· partition_sz`, writes `nextof(old) = end`, then iterates backwards threading
each chunk to its successor.  Returns the updated heap and the head (`block`). -/
def segregate (h : Heap) (block sz partitionSz e : Nat) : Heap × Nat :=
  let m := (sz - partitionSz) / partitionSz
  let h1 := hwrite h (block + m * partitionSz) e
  (segregateLoop h1 block partitionSz m, block)

/-- `linked h l e` holds when following the embedded next links visits the
addresses of `l` consecutively and the last visited address stores `e`
(for `l = []` the walk is empty and there is nothing to check). -/
def linked (h : Heap) : List Nat → Nat → Prop
  | [], _ => True
  | [a], e => hread h a = e
  | a :: b :: t, e => hread h a = b ∧ linked h (b :: t) e

/-! ## List-level model of the free list

The free-list state is the list of chunk addresses visited from `first`
(empty list ⇔ `first == 0`).  Each routine below is translated from
`simple_segregated_storage`, with the traversals becoming recursions over the
visited sequence. -/

/-- Inner loop of `find_prev` starting at node `iter` whose suffix of the free
list is the argument.  Returns the nodes up to and including the found
predecessor `loc`, and the nodes after it.  The C++ loop stops when
`nextof(iter) == 0` or `nextof(iter) > ptr`. -/
def findPrevGo (ptr iter : Nat) : List Nat → List Nat × List Nat
  | [] => ([iter], [])
  | b :: t =>
    if b > ptr then ([iter], b :: t)
    else
      let s := findPrevGo ptr b t
      (iter :: s.1, s.2)

/-- `simple_segregated_storage::find_prev(ptr)`, phrased as a split of the
free list: the first component is the prefix through the returned node `loc`
(empty when `find_prev` returns `0`), the second is the rest of the list. -/
def findPrevSplit (ptr : Nat) : List Nat → List Nat × List Nat
  | [] => ([], [])
  | a :: t => if a > ptr then ([], a :: t) else findPrevGo ptr a t

/-- `simple_segregated_storage::malloc`: pop the head of the free list.
Partial in the C++ code (precondition `!empty()`); modelled on the list. -/
def storageMalloc : List Nat → Option Nat × List Nat
  | [] => (none, [])
  | a :: t => (some a, t)

/-- `simple_segregated_storage::free`: push `chunk` at the head. -/
def storageFree (chunk : Nat) (free : List Nat) : List Nat := chunk :: free

/-- `simple_segregated_storage::ordered_free`: `find_prev` the splice point,
then either push at the head (`loc == 0`) or link after `loc`. -/
def storageOrderedFree (chunk : Nat) (free : List Nat) : List Nat :=
  let s := findPrevSplit chunk free
  s.1 ++ chunk :: s.2

/-- `simple_segregated_storage::add_block`: segregate the region and prepend
its chunk chain to the free list.  At the list level the segregated chain of a
region of `sz` bytes partitioned by `P` is the ascending chunk sequence (see
the `segregate` bridge theorem). -/
def addBlock (block sz P : Nat) (free : List Nat) : List Nat :=
  chunkSeq block ((sz - P) / P + 1) P ++ free

/-- `simple_segregated_storage::add_ordered_block`: find the splice position
with `find_prev(block)` and merge the segregated chain there. -/
def addOrderedBlock (block sz P : Nat) (free : List Nat) : List Nat :=
  let s := findPrevSplit block free
  s.1 ++ chunkSeq block ((sz - P) / P + 1) P ++ s.2

/-- `simple_segregated_storage::free_n`: no-op when `n == 0`, otherwise
`add_block(chunks, n * partition_size, partition_size)`. -/
def freeN (chunks n P : Nat) (free : List Nat) : List Nat :=
  if n ≠ 0 then addBlock chunks (n * P) P free else free

/-- `simple_segregated_storage::ordered_free_n`: no-op when `n == 0`,
otherwise `add_ordered_block(chunks, n * partition_size, partition_size)`. -/
def orderedFreeN (chunks n P : Nat) (free : List Nat) : List Nat :=
  if n ≠ 0 then addOrderedBlock chunks (n * P) P free else free

/-! ### `malloc_n`: searching the free list for a contiguous run

`try_malloc_n(start, n, P)` checks whether the `n` entries after the anchor
`start` form a contiguous run (successive addresses differing by exactly `P`).
On failure it moves the anchor to the last chunk of the broken run and the
outer loop of `malloc_n` resumes there; on success `malloc_n` unlinks the run
(`nextof(start) = nextof(iter)`).  At the list level the anchor is the
boundary between the kept prefix and the yet-unscanned suffix. -/

/-- The `while (--n != 0)` loop of `try_malloc_n`, having already accepted
chunk `c`: checks that the next `k` list entries continue contiguously from
`c`.  `Sum.inr rem` is success (`rem` = entries after the run);
`Sum.inl (sc, rem)` is failure, where `sc` collects the contiguous entries
scanned after `c` (the anchor moves to the last of `c :: sc`) and `rem` is
the remainder starting at the first non-contiguous entry (the C++ aborts both
when it hits end-of-list, `next == 0`, and on a non-contiguous chunk). -/
def runCheck (P c : Nat) : Nat → List Nat → Sum (List Nat × List Nat) (List Nat)
  | 0, rest => Sum.inr rest
  | _ + 1, [] => Sum.inl ([], [])
  | k + 1, b :: t =>
    if b = c + P then
      match runCheck P b k t with
      | Sum.inr rem => Sum.inr rem
      | Sum.inl s => Sum.inl (b :: s.1, s.2)
    else Sum.inl ([], b :: t)

/-- The `do … while (iter == 0)` loop of `malloc_n`, fuelled by the length of
the list (each failed probe consumes at least one entry).  Returns
`some (pre, q, rem)` where `pre` are the entries before the found run, `q` its
first chunk, `rem` the entries after it; `none` when the anchor reaches
end-of-list (`nextof(start) == 0`). -/
def mallocNGo (P n : Nat) : Nat → List Nat → Option (List Nat × Nat × List Nat)
  | _, [] => none
  | 0, _ :: _ => none
  | fuel + 1, a :: rest =>
    match runCheck P a (n - 1) rest with
    | Sum.inr rem => some ([], a, rem)
    | Sum.inl s =>
      match mallocNGo P n fuel s.2 with
      | none => none
      | some (pre, q, rem') => some (a :: s.1 ++ pre, q, rem')

/-- `simple_segregated_storage::malloc_n(n, partition_size)`: returns `0`
immediately when `n == 0`; otherwise searches for the first contiguous run of
`n` chunks, unlinks it as a unit and returns its first chunk.  The second
component is the resulting free list. -/
def mallocN (n P : Nat) (free : List Nat) : Option Nat × List Nat :=
  if n = 0 then (none, free)
  else
    match mallocNGo P n free.length free with
    | none => (none, free)
    | some (pre, q, rem) => (some q, pre ++ rem)

/-! ## The pool engine

A `Block` models one `PODptr`: region base address and total byte size.  The
block list (threaded through region trailers in the C++ code) is modelled as
the list of blocks in block-list order. -/

/-- One memory region as described by a `details::PODptr`: base address and
total size in bytes. -/
structure Block where
  base : Nat
  size : Nat
deriving DecidableEq, Repr

/-- `PODptr::element_size()`: the size of the chunk area,
`total_size - sizeof(size_type) - ct_lcm`. -/
def Block.elementSize (b : Block) : Nat := b.size - sizeofSizeT - ctLcmVal

/-- `PODptr::end()`: one past the chunk area, `begin() + element_size()`. -/
def Block.endPtr (b : Block) : Nat := b.base + b.elementSize

/-- The chunk addresses of a region, in ascending order (the iteration
`for (i = begin(); i != end(); i += partition_size)`). -/
def Block.chunks (b : Block) (P : Nat) : List Nat :=
  chunkSeq b.base (b.elementSize / P) P

/-- The state of a `boost::pool`: free list (list level), block list (in
block-list order), and the four size fields. -/
structure PoolState where
  freeList : List Nat
  blocks : List Block
  requestedSize : Nat
  nextSize : Nat
  startSize : Nat
  maxSize : Nat
deriving DecidableEq, Repr

/-- `pool::pool(nrequested_size, nnext_size = 32, nmax_size = 0)`. -/
def mkPool (nrequestedSize : Nat) (nnextSize : Nat := 32) (nmaxSize : Nat := 0) : PoolState :=
  { freeList := [], blocks := [], requestedSize := nrequestedSize,
    nextSize := nnextSize, startSize := nnextSize, maxSize := nmaxSize }

/-- The `next_size` update performed by `malloc_need_resize` and
`ordered_malloc_need_resize` after a successful system allocation. -/
def grownNextSize (nextSize maxSize P R : Nat) : Nat :=
  if maxSize = 0 then nextSize * 2
  else if nextSize * P / R < maxSize then min (nextSize * 2) (maxSize * R / P)
  else nextSize

/-- Number of bytes requested from the user allocator by the single-chunk
grow paths: `next_size * partition_size + ct_lcm + sizeof(size_type)`. -/
def podSize (nextSize P : Nat) : Nat := nextSize * P + ctLcmVal + sizeofSizeT

/-- The ordered insertion walk over the block list in
`ordered_malloc_need_resize` / `ordered_malloc(n)`: find the last block whose
`next_ptr` is null or greater than `node.begin()` and splice `node` after it.
`prev` is the current candidate. -/
def insertBlockGo (node prev : Block) : List Block → List Block
  | [] => [prev, node]
  | b :: t =>
    if b.base > node.base then prev :: node :: b :: t
    else prev :: insertBlockGo node b t

/-- Ordered insertion of a fresh region into the block list (the
`!list.valid() || list.begin() > node.begin()` border case puts it first). -/
def insertBlockOrdered (node : Block) : List Block → List Block
  | [] => [node]
  | b :: t => if b.base > node.base then node :: b :: t else insertBlockGo node b t

/-- `pool::malloc_need_resize()`: request `POD_size` bytes; on null return
`0` with the state untouched; otherwise update `next_size`, `add_block` the
region, push it at the front of the block list, and pop a chunk. -/
def mallocNeedResize (s : PoolState) (alloc : Option Nat) : Option Nat × PoolState :=
  let P := allocSize s.requestedSize
  let pod := podSize s.nextSize P
  match alloc with
  | none => (none, s)
  | some ptr =>
    let node : Block := ⟨ptr, pod⟩
    let ns := grownNextSize s.nextSize s.maxSize P s.requestedSize
    let free1 := addBlock node.base node.elementSize P s.freeList
    match storageMalloc free1 with
    | (r, free2) =>
      (r, { s with freeList := free2, blocks := node :: s.blocks, nextSize := ns })

/-- `pool::ordered_malloc_need_resize()`: like `malloc_need_resize` but the
region is merged with `add_ordered_block` and inserted into the block list in
ascending base order. -/
def orderedMallocNeedResize (s : PoolState) (alloc : Option Nat) : Option Nat × PoolState :=
  let P := allocSize s.requestedSize
  let pod := podSize s.nextSize P
  match alloc with
  | none => (none, s)
  | some ptr =>
    let node : Block := ⟨ptr, pod⟩
    let ns := grownNextSize s.nextSize s.maxSize P s.requestedSize
    let free1 := addOrderedBlock node.base node.elementSize P s.freeList
    match storageMalloc free1 with
    | (r, free2) =>
      (r, { s with freeList := free2, blocks := insertBlockOrdered node s.blocks,
                   nextSize := ns })

/-- `pool::malloc()`: pop the head of the free list if non-empty, otherwise
grow via `malloc_need_resize`. -/
def poolMalloc (s : PoolState) (alloc : Option Nat) : Option Nat × PoolState :=
  match s.freeList with
  | a :: t => (some a, { s with freeList := t })
  | [] => mallocNeedResize s alloc

/-- `pool::ordered_malloc()`: pop the head of the free list if non-empty,
otherwise grow via `ordered_malloc_need_resize`. -/
def poolOrderedMalloc (s : PoolState) (alloc : Option Nat) : Option Nat × PoolState :=
  match s.freeList with
  | a :: t => (some a, { s with freeList := t })
  | [] => orderedMallocNeedResize s alloc

/-- `num_chunks = n * requested_size / partition_size + (n * requested_size %
partition_size ? 1 : 0)`, the ceiling division used by the run interfaces. -/
def numChunksOf (n R P : Nat) : Nat :=
  n * R / P + (if n * R % P ≠ 0 then 1 else 0)

/-- `pool::ordered_malloc(n)`: try `malloc_n` on the free list; on failure
raise `next_size` to `max(next_size, num_chunks)` (note: before the system
allocation), request the region, give the tail of the region beyond the first
`num_chunks` chunks to the ordered free list, double `next_size`, insert the
region into the block list in address order and return its base. -/
def orderedMallocN (s : PoolState) (n : Nat) (alloc : Option Nat) : Option Nat × PoolState :=
  let P := allocSize s.requestedSize
  let num := numChunksOf n s.requestedSize P
  match mallocN num P s.freeList with
  | (some q, free') => (some q, { s with freeList := free' })
  | (none, _) =>
    let ns1 := max s.nextSize num
    let pod := ns1 * P + ctLcmVal + sizeofSizeT
    match alloc with
    | none => (none, { s with nextSize := ns1 })
    | some ptr =>
      let node : Block := ⟨ptr, pod⟩
      let free' :=
        if ns1 > num then
          addOrderedBlock (node.base + num * P) (node.elementSize - num * P) P s.freeList
        else s.freeList
      (some node.base,
       { s with freeList := free', blocks := insertBlockOrdered node s.blocks,
                nextSize := ns1 * 2 })

/-- `pool::free(chunk)`. -/
def poolFree (s : PoolState) (chunk : Nat) : PoolState :=
  { s with freeList := storageFree chunk s.freeList }

/-- `pool::ordered_free(chunk)`. -/
def poolOrderedFree (s : PoolState) (chunk : Nat) : PoolState :=
  { s with freeList := storageOrderedFree chunk s.freeList }

/-- `pool::free(chunks, n)`: compute `num_chunks` and `free_n`. -/
def poolFreeN (s : PoolState) (chunks n : Nat) : PoolState :=
  let P := allocSize s.requestedSize
  { s with freeList := freeN chunks (numChunksOf n s.requestedSize P) P s.freeList }

/-- `pool::ordered_free(chunks, n)`: compute `num_chunks` and
`ordered_free_n`. -/
def poolOrderedFreeN (s : PoolState) (chunks n : Nat) : PoolState :=
  let P := allocSize s.requestedSize
  { s with freeList := orderedFreeN chunks (numChunksOf n s.requestedSize P) P s.freeList }

/-! ### `release_memory` and `purge_memory`

`release_memory` walks the (ordered) block list with a cursor `free_p` into
the (ordered) free list.  For each block it first checks, chunk by chunk, that
the block's chunks are exactly the next entries at the cursor; on a mismatch
it restores the cursor (`saved_free`) and advances it past every free chunk
lying below the block's `end()` (those entries are kept); on success it
removes the block and unlinks exactly those entries.  The recursion below
returns the kept blocks, the resulting free list, and whether any region was
released. -/

/-- The block-list loop of `pool::release_memory`.  The `free` argument is
the not-yet-examined tail of the free list (the cursor position); kept
entries before the cursor are re-emitted by the recursion. -/
def releaseLoop (P : Nat) : List Block → List Nat → List Block × List Nat × Bool
  | [], free => ([], free, false)
  | b :: bs, free =>
    match free with
    | [] => (b :: bs, [], false)
    | f :: fs =>
      if b.chunks P <+: (f :: fs) then
        let rest := (f :: fs).drop (b.chunks P).length
        let r := releaseLoop P bs rest
        (r.1, r.2.1, true)
      else
        if b.base ≤ f ∧ f < b.endPtr then
          let kept := (f :: fs).takeWhile (fun c => decide (c < b.endPtr))
          let rest := (f :: fs).dropWhile (fun c => decide (c < b.endPtr))
          let r := releaseLoop P bs rest
          (b :: r.1, kept ++ r.2.1, r.2.2)
        else
          let r := releaseLoop P bs (f :: fs)
          (b :: r.1, r.2.1, r.2.2)

/-- `pool::release_memory()`: run the lockstep walk, then unconditionally
reset `next_size = start_size`.  Returns whether any region was released. -/
def releaseMemory (s : PoolState) : Bool × PoolState :=
  let P := allocSize s.requestedSize
  let r := releaseLoop P s.blocks s.freeList
  (r.2.2, { s with blocks := r.1, freeList := r.2.1, nextSize := s.startSize })

/-- `pool::purge_memory()`: if the block list is invalid return `false`
without touching anything; otherwise free every region, invalidate the block
list, clear the free list and reset `next_size = start_size`. -/
def purgeMemory (s : PoolState) : Bool × PoolState :=
  match s.blocks with
  | [] => (false, s)
  | _ :: _ => (true, { s with blocks := [], freeList := [], nextSize := s.startSize })

/-! ### `object_pool` destructor sweep

`~object_pool` walks the block list with a cursor `freed_iter` into the free
list; every chunk position that does not match the cursor gets its destructor
invoked.  The functions below return the list of chunk addresses whose
destructor is invoked. -/

/-- The inner chunk loop of `~object_pool` for one block: first component is
the chunks whose destructor runs, second the free-list cursor after the
block. -/
def sweepBlock : List Nat → List Nat → List Nat × List Nat
  | [], free => ([], free)
  | i :: is, free =>
    match free with
    | f :: fs =>
      if i = f then sweepBlock is fs
      else
        let r := sweepBlock is (f :: fs)
        (i :: r.1, r.2)
    | [] =>
      let r := sweepBlock is []
      (i :: r.1, r.2)

/-- The block-list loop of `~object_pool`: the addresses destroyed, in
traversal order.  (Every region is then returned to the user allocator and
the block list invalidated.) -/
def destructorSweep (P : Nat) : List Block → List Nat → List Nat
  | [], _ => []
  | b :: bs, free =>
    let r := sweepBlock (b.chunks P) free
    r.1 ++ destructorSweep P bs r.2

/-- The destructor calls performed when an `object_pool` in state `s` is
destroyed (`sizeof(T) = s.requestedSize`). -/
def objectPoolDtorCalls (s : PoolState) : List Nat :=
  match s.blocks with
  | [] => []
  | _ :: _ => destructorSweep (allocSize s.requestedSize) s.blocks s.freeList

/-- `object_pool<T>::construct()` repeated: pop a chunk when the free list is
non-empty, otherwise grow from the supply of fresh region addresses.  Returns
the final pool state and the unused supply. -/
def runConstructs : Nat → PoolState → List Nat → PoolState × List Nat
  | 0, s, sup => (s, sup)
  | k + 1, s, sup =>
    match s.freeList with
    | _ :: _ => runConstructs k (poolOrderedMalloc s none).2 sup
    | [] =>
      match sup with
      | [] => (s, [])
      | p :: ps => runConstructs k (poolOrderedMalloc s (some p)).2 ps

/-- The pool of an `object_pool<T>` with `sizeof(T) = 8` after 100
`construct()` calls and no `destroy`, growing from three fresh regions. -/
def s100 : PoolState := (runConstructs 100 (mkPool 8 32 0) [1000, 10000, 100000]).1

/-- Executable strict-ascending check (the ordering invariant of the spec),
propositionally equal to `List.Chain' (· < ·)` but with a `Decidable`
instance that evaluates by kernel reduction. -/
def sortedLtB : List Nat → Bool
  | [] => true
  | [_] => true
  | a :: b :: t => decide (a < b) && sortedLtB (b :: t)

/-- Strictly ascending address order (`List.Chain' (· < ·)`), as used for the
ordered free list and, via `Block.base`, the ordered block list. -/
def sortedLt (l : List Nat) : Prop := List.Chain' (· < ·) l

instance sortedLt.decPred : DecidablePred sortedLt := fun l =>
  decidable_of_iff (sortedLtB l = true) (by
    show sortedLtB l = true ↔ List.Chain' (· < ·) l
    induction l with
    | nil => simp [sortedLtB]
    | cons a t ih =>
      cases t with
      | nil => simp [sortedLtB]
      | cons b t' =>
        rw [sortedLtB, List.chain'_cons, Bool.and_eq_true, decide_eq_true_iff, ih])

/-- Successive addresses differ by exactly `P` (the contiguity test
`next == iter + partition_size` along a list segment). -/
def adjRun (P : Nat) (run : List Nat) : Prop :=
  List.Chain' (fun a b => b = a + P) run

/-- The free list has a contiguous run of `n` chunks starting at position
`i`. -/
def HasRunAt (P n : Nat) (l : List Nat) (i : Nat) : Prop :=
  ∃ pre run post, l = pre ++ run ++ post ∧ pre.length = i ∧ run.length = n ∧ adjRun P run

/-- The free list has a contiguous run of `n` chunks somewhere. -/
def HasRun (P n : Nat) (l : List Nat) : Prop := ∃ i, HasRunAt P n l i

/-! ### The pool invariant -/

/-- `c` is one of the chunk positions of region `b` (`begin() ≤ c < end()`,
aligned to the partition stride relative to the base). -/
def isChunkOf (P : Nat) (b : Block) (c : Nat) : Prop :=
  b.base ≤ c ∧ c < b.endPtr ∧ (c - b.base) % P = 0

/-- Well-formedness of one region record as created by the grow paths. -/
def blockWF (P : Nat) (b : Block) : Prop :=
  0 < b.base ∧ 0 < b.elementSize ∧ b.elementSize % P = 0 ∧
    b.size = b.elementSize + podOverhead

/-- The block list is in ascending base order with non-overlapping regions
(adjacent form; strict ascent of bases follows since sizes are positive). -/
def blocksOrdered (bs : List Block) : Prop :=
  List.Chain' (fun x y => x.base + x.size ≤ y.base) bs

/-- Executable mirror of `blocksOrdered`. -/
def blocksOrderedB : List Block → Bool
  | [] => true
  | [_] => true
  | x :: y :: t => decide (x.base + x.size ≤ y.base) && blocksOrderedB (y :: t)

instance blocksOrdered.decPred : DecidablePred blocksOrdered := fun bs =>
  decidable_of_iff (blocksOrderedB bs = true) (by
    show blocksOrderedB bs = true ↔
      List.Chain' (fun x y => x.base + x.size ≤ y.base) bs
    induction bs with
    | nil => simp [blocksOrderedB]
    | cons x t ih =>
      cases t with
      | nil => simp [blocksOrderedB]
      | cons y t' =>
        rw [blocksOrderedB, Bool.and_eq_true, decide_eq_true_iff,
          List.chain'_cons, ih])

/-- The pool invariant maintained by the ordered operations: positive sizes,
strictly ascending free list, ascending disjoint block list, well-formed
blocks, and every free chunk is a chunk position of some block. -/
def Inv (s : PoolState) : Prop :=
  0 < s.requestedSize ∧ 0 < s.nextSize ∧ 0 < s.startSize ∧
  sortedLt s.freeList ∧ blocksOrdered s.blocks ∧
  (∀ b ∈ s.blocks, blockWF (allocSize s.requestedSize) b) ∧
  (∀ c ∈ s.freeList, ∃ b ∈ s.blocks, isChunkOf (allocSize s.requestedSize) b c)

instance isChunkOf.dec (P : Nat) (b : Block) (c : Nat) : Decidable (isChunkOf P b c) :=
  inferInstanceAs (Decidable (b.base ≤ c ∧ c < b.endPtr ∧ (c - b.base) % P = 0))

instance blockWF.dec (P : Nat) (b : Block) : Decidable (blockWF P b) :=
  inferInstanceAs (Decidable (0 < b.base ∧ 0 < b.elementSize ∧
    b.elementSize % P = 0 ∧ b.size = b.elementSize + podOverhead))

instance Inv.decPred : DecidablePred Inv := fun s =>
  inferInstanceAs (Decidable
    (0 < s.requestedSize ∧ 0 < s.nextSize ∧ 0 < s.startSize ∧
     sortedLt s.freeList ∧ blocksOrdered s.blocks ∧
     (∀ b ∈ s.blocks, blockWF (allocSize s.requestedSize) b) ∧
     (∀ c ∈ s.freeList, ∃ b ∈ s.blocks, isChunkOf (allocSize s.requestedSize) b c)))

/-- The freshness contract of the user allocator for one grow request of
`size` bytes: a non-null region that overlaps no current region. -/
def FreshAlloc (s : PoolState) (alloc : Option Nat) (size : Nat) : Prop :=
  match alloc with
  | none => True
  | some p => 0 < p ∧ ∀ b ∈ s.blocks, b.base + b.size ≤ p ∨ p + size ≤ b.base

instance FreshAlloc.dec (s : PoolState) (alloc : Option Nat) (size : Nat) :
    Decidable (FreshAlloc s alloc size) :=
  match alloc with
  | none => isTrue trivial
  | some _ => inferInstanceAs (Decidable (_ ∧ _))

instance blockDisjointTrans :
    IsTrans Block (fun x y => x.base + x.size ≤ y.base) :=
  ⟨fun x y z hxy hyz => by omega⟩

/-- The concatenated chunk enumeration of an ordered block list. -/
def joinChunks (P : Nat) (bs : List Block) : List Nat :=
  (bs.map (fun b => b.chunks P)).flatten

/-- A small concrete ordered pool state: one region at 1000, both chunks free. -/
def c9state : PoolState :=
  { freeList := [1000, 1008], blocks := [⟨1000, 32⟩], requestedSize := 8,
    nextSize := 4, startSize := 2, maxSize := 0 }

/-! ### The ordered-usage step relation

One step is one public ordered-interface call; the side conditions state the
usage contract: the user allocator hands back fresh non-null regions, frees
return chunks the pool handed out (a chunk position of some current region,
not currently free), and run frees return a previously returned run. -/

/-- One call of the ordered interface, relating the state before to the state
after. -/
inductive OrderedStep : PoolState → PoolState → Prop where
  | omalloc (s : PoolState) (alloc : Option Nat)
      (hfresh : FreshAlloc s alloc (podSize s.nextSize (allocSize s.requestedSize))) :
      OrderedStep s (poolOrderedMalloc s alloc).2
  | omallocN (s : PoolState) (n : Nat) (alloc : Option Nat)
      (hfresh : FreshAlloc s alloc
        (podSize (max s.nextSize (numChunksOf n s.requestedSize (allocSize s.requestedSize)))
          (allocSize s.requestedSize))) :
      OrderedStep s (orderedMallocN s n alloc).2
  | ofree (s : PoolState) (c : Nat) (hc : c ∉ s.freeList)
      (hcb : ∃ b ∈ s.blocks, isChunkOf (allocSize s.requestedSize) b c) :
      OrderedStep s (poolOrderedFree s c)
  | ofreeN (s : PoolState) (p n : Nat)
      (hside : numChunksOf n s.requestedSize (allocSize s.requestedSize) = 0 ∨
        ∃ b ∈ s.blocks, ∀ j, j < numChunksOf n s.requestedSize (allocSize s.requestedSize) →
          isChunkOf (allocSize s.requestedSize) b (p + j * allocSize s.requestedSize) ∧
          p + j * allocSize s.requestedSize ∉ s.freeList) :
      OrderedStep s (poolOrderedFreeN s p n)
  | release (s : PoolState) : OrderedStep s (releaseMemory s).2
  | purge (s : PoolState) : OrderedStep s (purgeMemory s).2

/-! ### Traces of ordered allocate/free calls

A trace models a client's matched usage: each `pmalloc` is one
`ordered_malloc()` call (with the user-allocator's answer), each `pfree c`
returns a chunk the client still holds.  `runOps` threads the pool state and
the list of chunks currently held by the client. -/

/-- One client call of a malloc/free trace. -/
inductive PoolOp where
  | pmalloc (alloc : Option Nat)
  | pfree (c : Nat)
deriving DecidableEq, Repr

/-- Run a trace of `ordered_malloc` / `ordered_free` calls, tracking the
chunks currently held by the client. -/
def runOps : PoolState → List Nat → List PoolOp → PoolState × List Nat
  | s, live, [] => (s, live)
  | s, live, PoolOp.pmalloc alloc :: ops =>
    match poolOrderedMalloc s alloc with
    | (none, s') => runOps s' live ops
    | (some q, s') => runOps s' (q :: live) ops
  | s, live, PoolOp.pfree c :: ops => runOps (poolOrderedFree s c) (live.erase c) ops

/-- Usage validity of a trace: every grow is served by a fresh region and
every free returns a chunk the client currently holds. -/
def validOps : PoolState → List Nat → List PoolOp → Bool
  | _, _, [] => true
  | s, live, PoolOp.pmalloc alloc :: ops =>
    decide (FreshAlloc s alloc (podSize s.nextSize (allocSize s.requestedSize))) &&
    (match poolOrderedMalloc s alloc with
     | (none, s') => validOps s' live ops
     | (some q, s') => validOps s' (q :: live) ops)
  | s, live, PoolOp.pfree c :: ops =>
    decide (c ∈ live) && validOps (poolOrderedFree s c) (live.erase c) ops

/-- The invariant tying the pool state to the client's held chunks: the pool
invariant, no chunk held twice, held chunks are chunk positions of current
regions, held chunks are off the free list, and free plus held chunks are
exactly the chunk positions of the block list. -/
def TraceInv (s : PoolState) (live : List Nat) : Prop :=
  Inv s ∧ live.Nodup ∧
  (∀ c ∈ live, ∃ b ∈ s.blocks, isChunkOf (allocSize s.requestedSize) b c) ∧
  (∀ c ∈ live, c ∉ s.freeList) ∧
  List.Perm (s.freeList ++ live) (joinChunks (allocSize s.requestedSize) s.blocks)

/-! ## Basic facts about `chunkSeq` -/

theorem chunkSeq_length (base n P : Nat) : (chunkSeq base n P).length = n := by
  simp [chunkSeq]

theorem chunkSeq_succ (base n P : Nat) :
    chunkSeq base (n + 1) P = base :: chunkSeq (base + P) n P := by
  rw [chunkSeq, List.range_succ_eq_map, List.map_cons, List.map_map, chunkSeq]
  congr 1
  · simp
  · apply List.map_congr_left
    intro j _
    simp only [Function.comp, Nat.succ_eq_add_one]
    ring

theorem mem_chunkSeq {c base n P : Nat} :
    c ∈ chunkSeq base n P ↔ ∃ j, j < n ∧ c = base + j * P := by
  simp only [chunkSeq, List.mem_map, List.mem_range]
  constructor
  · rintro ⟨j, hj, rfl⟩; exact ⟨j, hj, rfl⟩
  · rintro ⟨j, hj, rfl⟩; exact ⟨j, hj, rfl⟩

theorem chunkSeq_getElem (base n P i : Nat) (h : i < n) :
    (chunkSeq base n P).get ⟨i, by simpa [chunkSeq_length] using h⟩ = base + i * P := by
  simp [chunkSeq]

theorem chunkSeq_getLast (base n P : Nat) (h : 0 < n) :
    (chunkSeq base n P).getLast? = some (base + (n - 1) * P) := by
  induction n generalizing base with
  | zero => omega
  | succ n ih =>
    cases n with
    | zero =>
      have h1 : chunkSeq base 1 P = [base] := by
        rw [chunkSeq_succ]
        simp [chunkSeq]
      rw [h1]
      simp
    | succ k =>
      rw [chunkSeq_succ, chunkSeq_succ, List.getLast?_cons_cons, ← chunkSeq_succ,
        ih (base + P) (by omega)]
      have h2 : k + 1 - 1 = k := rfl
      have h3 : k + 1 + 1 - 1 = k + 1 := rfl
      rw [h2, h3]
      have h4 : base + P + k * P = base + (k + 1) * P := by ring
      rw [h4]

theorem chunkSeq_chain_lt {base P : Nat} (hP : 0 < P) (n : Nat) :
    List.Chain' (· < ·) (chunkSeq base n P) := by
  induction n generalizing base with
  | zero => simp [chunkSeq]
  | succ n ih =>
    rw [chunkSeq_succ]
    refine List.chain'_cons'.2 ⟨?_, ih⟩
    intro y hy
    cases n with
    | zero => simp [chunkSeq] at hy
    | succ m =>
      rw [chunkSeq_succ] at hy
      simp only [List.head?_cons, Option.mem_def, Option.some.injEq] at hy
      omega

theorem chunkSeq_chain_adj {base P : Nat} (n : Nat) :
    List.Chain' (fun a b => b = a + P) (chunkSeq base n P) := by
  induction n generalizing base with
  | zero => simp [chunkSeq]
  | succ n ih =>
    rw [chunkSeq_succ]
    refine List.chain'_cons'.2 ⟨?_, ih⟩
    intro y hy
    cases n with
    | zero => simp [chunkSeq] at hy
    | succ m =>
      rw [chunkSeq_succ] at hy
      simp only [List.head?_cons, Option.mem_def, Option.some.injEq] at hy
      omega

theorem chunkSeq_nodup {base P : Nat} (hP : 0 < P) (n : Nat) :
    (chunkSeq base n P).Nodup :=
  (List.chain'_iff_pairwise.mp (chunkSeq_chain_lt hP n)).nodup


/-! ## The `segregate` bridge: the backward write loop produces the forward
ascending chain -/

theorem segregateLoop_read_out {block P a : Nat} :
    ∀ (m : Nat) (h : Heap), (∀ j, j < m → a ≠ block + j * P) →
      segregateLoop h block P m a = h a := by
  intro m
  induction m with
  | zero => intro h _; rfl
  | succ m ih =>
    intro h hne
    have h1 := ih (hwrite h (block + m * P) (block + (m + 1) * P))
      (fun j hj => hne j (by omega))
    rw [segregateLoop, h1, hwrite, if_neg (hne m (by omega))]

theorem segregateLoop_read_in {block P : Nat} (hP : 0 < P) :
    ∀ (m : Nat) (h : Heap) (j : Nat), j < m →
      segregateLoop h block P m (block + j * P) = block + (j + 1) * P := by
  intro m
  induction m with
  | zero => intro h j hj; omega
  | succ m ih =>
    intro h j hj
    rcases Nat.lt_or_ge j m with hlt | hge
    · exact ih _ j hlt
    · have hj' : j = m := by omega
      subst hj'
      rw [segregateLoop, segregateLoop_read_out j _ ?_]
      · rw [hwrite, if_pos rfl]
      · intro i hi hEq
        have : i * P < j * P := (Nat.mul_lt_mul_right hP).mpr hi
        omega

/-- Build a `linked` walk from pointwise successor facts. -/
theorem linked_of_reads (h : Heap) (e : Nat) :
    ∀ l : List Nat,
      (∀ i (hi : i + 1 < l.length),
        hread h (l.get ⟨i, by omega⟩) = l.get ⟨i + 1, hi⟩) →
      (∀ last, l.getLast? = some last → hread h last = e) →
      linked h l e := by
  intro l
  induction l with
  | nil => intro _ _; trivial
  | cons a t ih =>
    intro hsucc hlast
    cases t with
    | nil => exact hlast a rfl
    | cons b t' =>
      refine ⟨hsucc 0 (by simp), ?_⟩
      exact ih (fun i hi => hsucc (i + 1) (by simpa using hi))
        (fun last hl => hlast last (by simpa using hl))

/-- The heap component of `segregate`, unfolded. -/
theorem segregate_fst (h : Heap) (block sz P e : Nat) :
    (segregate h block sz P e).1 =
      segregateLoop (hwrite h (block + ((sz - P) / P) * P) e) block P ((sz - P) / P) := rfl

/-- Reading any chunk but the last after `segregate` yields the next chunk. -/
theorem segregate_read_mid (h : Heap) (block sz P e : Nat) (hP0 : 0 < P)
    (i : Nat) (hi : i < (sz - P) / P) :
    (segregate h block sz P e).1 (block + i * P) = block + (i + 1) * P := by
  rw [segregate_fst]
  exact segregateLoop_read_in hP0 _ _ i hi

/-- Reading the last chunk after `segregate` yields the tail value. -/
theorem segregate_read_last (h : Heap) (block sz P e : Nat) (hP0 : 0 < P) :
    (segregate h block sz P e).1 (block + ((sz - P) / P) * P) = e := by
  rw [segregate_fst, segregateLoop_read_out ((sz - P) / P) _ ?_]
  · rw [hwrite, if_pos rfl]
  · intro j hj hEq
    have : j * P < ((sz - P) / P) * P := (Nat.mul_lt_mul_right hP0).mpr hj
    omega

/-- **C6.** `segregate(block, length, P, tail)` returns `block`; following the
embedded next links from `block` in the written heap visits exactly the
chunks `block, block + P, …, block + ⌊(length - P)/P⌋·P`, in strictly
ascending address order, and the last chunk's next link is `tail`. -/
theorem claim_C6 (h : Heap) (block len P tail : Nat)
    (hP : sizeofVoidPtr ≤ P) (halign : sizeofVoidPtr ∣ P) (hlen : P ≤ len) :
    (segregate h block len P tail).2 = block ∧
    linked (segregate h block len P tail).1 (chunkSeq block ((len - P) / P + 1) P) tail ∧
    List.Chain' (· < ·) (chunkSeq block ((len - P) / P + 1) P) := by
  have hP0 : 0 < P := by
    have : (0 : Nat) < sizeofVoidPtr := by decide
    omega
  refine ⟨rfl, ?_, chunkSeq_chain_lt hP0 _⟩
  apply linked_of_reads
  · intro i hi
    rw [chunkSeq_length] at hi
    rw [chunkSeq_getElem block ((len - P) / P + 1) P i (by omega),
        chunkSeq_getElem block ((len - P) / P + 1) P (i + 1) (by omega)]
    exact segregate_read_mid h block len P tail hP0 i (by omega)
  · intro last hlast
    rw [chunkSeq_getLast block ((len - P) / P + 1) P (Nat.succ_pos _)] at hlast
    have hl : last = block + ((len - P) / P) * P := by
      have hidx : (len - P) / P + 1 - 1 = (len - P) / P := rfl
      rw [hidx] at hlast
      exact (Option.some_inj.mp hlast).symm
    subst hl
    exact segregate_read_last h block len P tail hP0

/-- Witness for C6 at `block = 1000`, `len = 32`, `P = 8`, `tail = 77`
(4 chunks `1000, 1008, 1016, 1024`). -/
theorem claim_C6_witness :
    sizeofVoidPtr ≤ 8 ∧ sizeofVoidPtr ∣ 8 ∧ 8 ≤ 32 ∧
    ((segregate (fun _ => 0) 1000 32 8 77).2 = 1000 ∧
     linked (segregate (fun _ => 0) 1000 32 8 77).1 (chunkSeq 1000 ((32 - 8) / 8 + 1) 8) 77 ∧
     List.Chain' (· < ·) (chunkSeq 1000 ((32 - 8) / 8 + 1) 8)) :=
  ⟨by decide, by decide, by decide,
   claim_C6 (fun _ => 0) 1000 32 8 77 (by decide) (by decide) (by decide)⟩

/-! ## Characterising `find_prev` and the ordered splices -/

theorem findPrevGo_eq (ptr a : Nat) (l : List Nat) :
    findPrevGo ptr a l =
      (a :: l.takeWhile (fun b => b ≤ ptr), l.dropWhile (fun b => b ≤ ptr)) := by
  induction l generalizing a with
  | nil => rfl
  | cons b t ih =>
    rw [findPrevGo]
    by_cases hb : b > ptr
    · rw [if_pos hb]
      have hb' : (b ≤ ptr : Bool) = false := by simp; omega
      simp [List.takeWhile_cons, List.dropWhile_cons, hb']
    · rw [if_neg hb]
      have hb' : (b ≤ ptr : Bool) = true := by simp; omega
      simp [List.takeWhile_cons, List.dropWhile_cons, hb', ih]

theorem findPrevSplit_eq (ptr : Nat) (l : List Nat) :
    findPrevSplit ptr l =
      (l.takeWhile (fun b => b ≤ ptr), l.dropWhile (fun b => b ≤ ptr)) := by
  cases l with
  | nil => rfl
  | cons a t =>
    rw [findPrevSplit]
    by_cases ha : a > ptr
    · rw [if_pos ha]
      have ha' : (a ≤ ptr : Bool) = false := by simp; omega
      simp [List.takeWhile_cons, List.dropWhile_cons, ha']
    · rw [if_neg ha]
      have ha' : (a ≤ ptr : Bool) = true := by simp; omega
      simp [List.takeWhile_cons, List.dropWhile_cons, ha', findPrevGo_eq]

theorem storageOrderedFree_eq (c : Nat) (l : List Nat) :
    storageOrderedFree c l =
      l.takeWhile (fun b => b ≤ c) ++ c :: l.dropWhile (fun b => b ≤ c) := by
  rw [storageOrderedFree, findPrevSplit_eq]

theorem addOrderedBlock_eq (block sz P : Nat) (l : List Nat) :
    addOrderedBlock block sz P l =
      l.takeWhile (fun b => b ≤ block) ++ chunkSeq block ((sz - P) / P + 1) P ++
        l.dropWhile (fun b => b ≤ block) := by
  rw [addOrderedBlock, findPrevSplit_eq]

theorem storageOrderedFree_perm (c : Nat) (l : List Nat) :
    List.Perm (storageOrderedFree c l) (c :: l) := by
  rw [storageOrderedFree_eq]
  have h1 : List.Perm (l.takeWhile (fun b => b ≤ c) ++ c :: l.dropWhile (fun b => b ≤ c))
      (c :: (l.takeWhile (fun b => b ≤ c) ++ l.dropWhile (fun b => b ≤ c))) :=
    List.perm_middle
  rw [List.takeWhile_append_dropWhile] at h1
  exact h1

theorem addOrderedBlock_perm (block sz P : Nat) (l : List Nat) :
    List.Perm (addOrderedBlock block sz P l) (chunkSeq block ((sz - P) / P + 1) P ++ l) := by
  rw [addOrderedBlock_eq]
  have h1 : List.Perm
      (l.takeWhile (fun b => b ≤ block) ++ (chunkSeq block ((sz - P) / P + 1) P ++
        l.dropWhile (fun b => b ≤ block)))
      (chunkSeq block ((sz - P) / P + 1) P ++
        (l.takeWhile (fun b => b ≤ block) ++ l.dropWhile (fun b => b ≤ block))) :=
    List.perm_append_comm_assoc _ _ _
  rw [List.takeWhile_append_dropWhile] at h1
  rw [List.append_assoc]
  exact h1

/-- The head of `dropWhile p l` falsifies `p`. -/
theorem head_dropWhile_false (p : Nat → Bool) :
    ∀ l : List Nat, ∀ y ∈ (l.dropWhile p).head?, p y = false := by
  intro l
  induction l with
  | nil => intro y hy; simp at hy
  | cons a t ih =>
    intro y hy
    rw [List.dropWhile_cons] at hy
    by_cases ha : p a = true
    · rw [if_pos ha] at hy
      exact ih y hy
    · rw [if_neg ha] at hy
      simp only [List.head?_cons, Option.mem_def, Option.some.injEq] at hy
      subst hy
      simpa using ha

/-- Splicing a sorted non-empty segment `M` at the `find_prev p` position of a
sorted list preserves strict sortedness, provided every element of `M` is
above the `≤ p` part of `l` and below the `> p` part of `l`. -/
theorem chain'_lt_splice (l M : List Nat) (p : Nat)
    (hl : List.Chain' (· < ·) l) (hM : List.Chain' (· < ·) M)
    (hlow : ∀ a ∈ l, a ≤ p → ∀ m ∈ M, a < m)
    (hhigh : ∀ a ∈ l, p < a → ∀ m ∈ M, m < a) :
    List.Chain' (· < ·)
      (l.takeWhile (fun b => b ≤ p) ++ M ++ l.dropWhile (fun b => b ≤ p)) := by
  have htake : List.Chain' (· < ·) (l.takeWhile (fun b => b ≤ p)) :=
    hl.sublist (List.takeWhile_sublist _)
  have hdrop : List.Chain' (· < ·) (l.dropWhile (fun b => b ≤ p)) :=
    hl.sublist (List.dropWhile_sublist _)
  have hMd : List.Chain' (· < ·) (M ++ l.dropWhile (fun b => b ≤ p)) := by
    rw [List.chain'_append]
    refine ⟨hM, hdrop, ?_⟩
    intro x hx y hy
    have hyl : y ∈ l := (List.dropWhile_sublist _).mem (List.mem_of_mem_head? hy)
    have hyp : ¬ (y ≤ p) := by
      have := head_dropWhile_false (fun b => b ≤ p) l y hy
      simpa using this
    exact hhigh y hyl (by omega) x (List.mem_of_mem_getLast? hx)
  rw [List.append_assoc, List.chain'_append]
  refine ⟨htake, hMd, ?_⟩
  intro x hx y hy
  have hxl : x ∈ l.takeWhile (fun b => b ≤ p) := List.mem_of_mem_getLast? hx
  have hxp : x ≤ p := by simpa using List.mem_takeWhile_imp hxl
  have hxl' : x ∈ l := (List.takeWhile_sublist _).mem hxl
  have hyMd : y ∈ M ++ l.dropWhile (fun b => b ≤ p) :=
    List.mem_of_mem_head? hy
  rcases List.mem_append.mp hyMd with hyM | hyD
  · -- `y` comes from the head of `M` (or `M` is empty and this is vacuous)
    exact hlow x hxl' hxp y hyM
  · -- `M` must be empty for the head of the append to fall in the drop part
    cases M with
    | nil =>
      have hyp : ¬ (y ≤ p) := by
        have hh : (l.dropWhile (fun b => b ≤ p)).head? = some y := by
          simpa using hy
        have := head_dropWhile_false (fun b => b ≤ p) l y hh
        simpa using this
      omega
    | cons m0 M' =>
      have hym : m0 = y := by simpa using hy
      rw [← hym]
      exact hlow x hxl' hxp m0 (List.mem_cons_self m0 M')

/-! ## C10: `n == 0` is a silent no-op -/

/-- **C10.** `malloc_n(0, P)` returns null and leaves the free list
unchanged; `free_n(chunks, 0, P)` and `ordered_free_n(chunks, 0, P)` leave
the free list unchanged (in the byte-level code the `n != 0` guards mean no
chunk byte is read or written). -/
theorem claim_C10 :
    (∀ (P : Nat) (free : List Nat), mallocN 0 P free = (none, free)) ∧
    (∀ (chunks P : Nat) (free : List Nat), freeN chunks 0 P free = free) ∧
    (∀ (chunks P : Nat) (free : List Nat), orderedFreeN chunks 0 P free = free) := by
  refine ⟨fun P free => ?_, fun chunks P free => ?_, fun chunks P free => ?_⟩
  · rw [mallocN, if_pos rfl]
  · rw [freeN, if_neg (by omega)]
  · rw [orderedFreeN, if_neg (by omega)]

/-! ## Block-list insertion facts -/

theorem insertBlockGo_perm (node prev : Block) (l : List Block) :
    List.Perm (insertBlockGo node prev l) (prev :: node :: l) := by
  induction l generalizing prev with
  | nil => rfl
  | cons b t ih =>
    rw [insertBlockGo]
    by_cases hb : b.base > node.base
    · rw [if_pos hb]
    · rw [if_neg hb]
      exact ((ih b).cons prev).trans (List.Perm.cons prev (List.Perm.swap node b t))

theorem insertBlockOrdered_perm (node : Block) (l : List Block) :
    List.Perm (insertBlockOrdered node l) (node :: l) := by
  cases l with
  | nil => rfl
  | cons b t =>
    rw [insertBlockOrdered]
    by_cases hb : b.base > node.base
    · rw [if_pos hb]
    · rw [if_neg hb]
      exact (insertBlockGo_perm node b t).trans (List.Perm.swap node b t)

/-! ## C7: the single-chunk growth policy -/

/-- **C7.**  A single-chunk grow (`malloc_need_resize` or
`ordered_malloc_need_resize`) requests exactly `next_size · P + T` bytes
(`T = lcm(sizeof(size_type), sizeof(void *)) + sizeof(size_type)`), recorded
as the new region's total size, and updates `next_size` by: doubling when
`max_size == 0`; `min(next_size * 2, max_size · R / P)` when
`next_size · P / R < max_size`; and leaving it unchanged otherwise. -/
theorem claim_C7 (s : PoolState) (ptr : Nat) :
    (mallocNeedResize s (some ptr)).2.blocks.head? =
      some ⟨ptr, s.nextSize * allocSize s.requestedSize + podOverhead⟩ ∧
    (⟨ptr, s.nextSize * allocSize s.requestedSize + podOverhead⟩ : Block) ∈
      (orderedMallocNeedResize s (some ptr)).2.blocks ∧
    (mallocNeedResize s (some ptr)).2.nextSize =
      (if s.maxSize = 0 then s.nextSize * 2
       else if s.nextSize * allocSize s.requestedSize / s.requestedSize < s.maxSize then
         min (s.nextSize * 2) (s.maxSize * s.requestedSize / allocSize s.requestedSize)
       else s.nextSize) ∧
    (orderedMallocNeedResize s (some ptr)).2.nextSize =
      (if s.maxSize = 0 then s.nextSize * 2
       else if s.nextSize * allocSize s.requestedSize / s.requestedSize < s.maxSize then
         min (s.nextSize * 2) (s.maxSize * s.requestedSize / allocSize s.requestedSize)
       else s.nextSize) := by
  refine ⟨?_, ?_, rfl, rfl⟩
  · rfl
  · have hperm : List.Perm
        ((orderedMallocNeedResize s (some ptr)).2.blocks)
        (⟨ptr, podSize s.nextSize (allocSize s.requestedSize)⟩ :: s.blocks) :=
      insertBlockOrdered_perm _ _
    have : (⟨ptr, podSize s.nextSize (allocSize s.requestedSize)⟩ : Block) ∈
        (orderedMallocNeedResize s (some ptr)).2.blocks :=
      hperm.mem_iff.mpr (List.mem_cons_self _ _)
    simpa [podSize, podOverhead] using this

/-! ## C1: the `next_size` cap -/

/-- The cap is preserved by the shared single-chunk `next_size` update. -/
theorem grownNextSize_le_cap {n maxSize P R : Nat} (hR : 0 < R) (hP : 0 < P)
    (hmax : 0 < maxSize) (hpre : n * P / R ≤ maxSize) :
    grownNextSize n maxSize P R * P / R ≤ maxSize := by
  rw [grownNextSize, if_neg (by omega)]
  by_cases hlt : n * P / R < maxSize
  · rw [if_pos hlt]
    have h1 : min (n * 2) (maxSize * R / P) ≤ maxSize * R / P := Nat.min_le_right _ _
    have h2 : min (n * 2) (maxSize * R / P) * P ≤ maxSize * R / P * P :=
      Nat.mul_le_mul_right _ h1
    have h3 : maxSize * R / P * P ≤ maxSize * R := Nat.div_mul_le_self _ _
    calc min (n * 2) (maxSize * R / P) * P / R
        ≤ maxSize * R / R := Nat.div_le_div_right (by omega)
      _ = maxSize := Nat.mul_div_cancel maxSize hR
  · rw [if_neg hlt]
    exact hpre

/-- **C1 (amended).** For a pool with `max_size > 0` whose `next_size`
satisfies the cap `next_size · P / R ≤ max_size`, the cap still holds after a
grow on either single-chunk path (`malloc_need_resize`,
`ordered_malloc_need_resize`).  (As stated over all allocation paths the
claim fails: the `ordered_malloc(n)` grow path ignores `max_size`; see the
counterexample.) -/
theorem claim_C1 (s : PoolState) (ptr : Nat)
    (hR : 0 < s.requestedSize) (hmax : 0 < s.maxSize)
    (hpre : s.nextSize * allocSize s.requestedSize / s.requestedSize ≤ s.maxSize) :
    (mallocNeedResize s (some ptr)).2.nextSize * allocSize s.requestedSize /
        s.requestedSize ≤ s.maxSize ∧
    (orderedMallocNeedResize s (some ptr)).2.nextSize * allocSize s.requestedSize /
        s.requestedSize ≤ s.maxSize := by
  have hP : 0 < allocSize s.requestedSize :=
    Nat.lcm_pos hR (by decide)
  exact ⟨grownNextSize_le_cap hR hP hmax hpre, grownNextSize_le_cap hR hP hmax hpre⟩

/-- Witness for the amended C1: pool `R = 8`, `next_size = 2`, `max_size = 4`;
after a single-chunk grow `next_size = 4` and `4 · 8 / 8 = 4 ≤ 4`. -/
theorem claim_C1_witness :
    0 < (mkPool 8 2 4).requestedSize ∧ 0 < (mkPool 8 2 4).maxSize ∧
    (mkPool 8 2 4).nextSize * allocSize (mkPool 8 2 4).requestedSize /
      (mkPool 8 2 4).requestedSize ≤ (mkPool 8 2 4).maxSize ∧
    ((mallocNeedResize (mkPool 8 2 4) (some 1000)).2.nextSize *
        allocSize (mkPool 8 2 4).requestedSize / (mkPool 8 2 4).requestedSize ≤
        (mkPool 8 2 4).maxSize ∧
     (orderedMallocNeedResize (mkPool 8 2 4) (some 1000)).2.nextSize *
        allocSize (mkPool 8 2 4).requestedSize / (mkPool 8 2 4).requestedSize ≤
        (mkPool 8 2 4).maxSize) :=
  ⟨by decide, by decide, by decide,
   claim_C1 (mkPool 8 2 4) 1000 (by decide) (by decide) (by decide)⟩

/-- Counterexample to C1 as stated: pool `R = 8` (so `P = 8`),
`next_size = 2`, `max_size = 4`; the allocation call `ordered_malloc(16)`
performs a grow (a region is added) yet leaves
`next_size · P / R = 32 > 4 = max_size`. -/
theorem claim_C1_cex :
    (orderedMallocN (mkPool 8 2 4) 16 (some 1000)).2.blocks ≠ (mkPool 8 2 4).blocks ∧
    0 < (mkPool 8 2 4).maxSize ∧
    ¬ ((orderedMallocN (mkPool 8 2 4) 16 (some 1000)).2.nextSize *
        allocSize (mkPool 8 2 4).requestedSize / (mkPool 8 2 4).requestedSize ≤
        (mkPool 8 2 4).maxSize) := by
  decide

/-! ## C2: failed grows -/

/-- **C2 (amended).** When the user allocator returns null during a grow, the
whole allocation call returns null.  On the single-chunk paths (`malloc`,
`ordered_malloc`) the pool state is exactly what it was before the call.  On
the `ordered_malloc(n)` path the free list and block list (and
`start_size`/`max_size`) are unchanged, but `next_size` has already been
raised to `max(next_size, num_chunks)` before the allocator was consulted. -/
theorem claim_C2 :
    (∀ s : PoolState, s.freeList = [] → poolMalloc s none = (none, s)) ∧
    (∀ s : PoolState, s.freeList = [] → poolOrderedMalloc s none = (none, s)) ∧
    (∀ (s : PoolState) (n : Nat),
      (mallocN (numChunksOf n s.requestedSize (allocSize s.requestedSize))
          (allocSize s.requestedSize) s.freeList).1 = none →
      orderedMallocN s n none =
        (none, { s with
                 nextSize := max s.nextSize
                   (numChunksOf n s.requestedSize (allocSize s.requestedSize)) })) := by
  refine ⟨fun s hs => ?_, fun s hs => ?_, fun s n hm => ?_⟩
  · rw [poolMalloc, hs]
    rfl
  · rw [poolOrderedMalloc, hs]
    rfl
  · rw [orderedMallocN]
    rcases hmn : mallocN (numChunksOf n s.requestedSize (allocSize s.requestedSize))
        (allocSize s.requestedSize) s.freeList with ⟨r, free'⟩
    rw [hmn] at hm
    simp only at hm
    subst hm
    rfl

/-- Witness for the amended C2: the three conclusions at the empty pool
`R = 8`, `next_size = 2` and at `ordered_malloc(16)`. -/
theorem claim_C2_witness :
    ((mkPool 8 2 0).freeList = [] ∧ poolMalloc (mkPool 8 2 0) none = (none, mkPool 8 2 0)) ∧
    (poolOrderedMalloc (mkPool 8 2 0) none = (none, mkPool 8 2 0)) ∧
    ((mallocN (numChunksOf 16 (mkPool 8 2 0).requestedSize
          (allocSize (mkPool 8 2 0).requestedSize))
        (allocSize (mkPool 8 2 0).requestedSize) (mkPool 8 2 0).freeList).1 = none ∧
      orderedMallocN (mkPool 8 2 0) 16 none =
        (none, { mkPool 8 2 0 with
                 nextSize := max (mkPool 8 2 0).nextSize
                   (numChunksOf 16 (mkPool 8 2 0).requestedSize
                     (allocSize (mkPool 8 2 0).requestedSize)) })) :=
  ⟨⟨rfl, claim_C2.1 (mkPool 8 2 0) rfl⟩,
   claim_C2.2.1 (mkPool 8 2 0) rfl,
   ⟨by decide, claim_C2.2.2 (mkPool 8 2 0) 16 (by decide)⟩⟩

/-- Counterexample to C2 as stated: pool `R = 8`, `next_size = 2`; the call
`ordered_malloc(16)` with an out-of-memory user allocator returns null but
leaves `next_size = 16  ≠ 2`: the pool state is not what it was before. -/
theorem claim_C2_cex :
    (orderedMallocN (mkPool 8 2 0) 16 none).1 = none ∧
    (orderedMallocN (mkPool 8 2 0) 16 none).2 ≠ mkPool 8 2 0 := by
  decide

/-! ## C9: the ordered single-chunk round trip -/

/-- **C9 (amended).** For every pool state with a non-empty (sorted ordered)
free list, `ordered_free(ordered_malloc())` restores exactly the
pre-allocation state: the free list holds the same chunks in the same
ascending order.  (On an empty free list `ordered_malloc()` grows, which the
round trip does not undo; see the counterexample.) -/
theorem claim_C9 (s : PoolState) (q : Nat) (t : List Nat)
    (hfree : s.freeList = q :: t) (hsorted : sortedLt s.freeList) :
    (poolOrderedMalloc s none).1 = some q ∧
    poolOrderedFree (poolOrderedMalloc s none).2 q = s := by
  have hmal : poolOrderedMalloc s none = (some q, { s with freeList := t }) := by
    rw [poolOrderedMalloc, hfree]
  refine ⟨by rw [hmal], ?_⟩
  rw [hmal]
  show poolOrderedFree { s with freeList := t } q = s
  rw [poolOrderedFree, storageOrderedFree_eq]
  have htake : t.takeWhile (fun b => b ≤ q) = [] := by
    cases t with
    | nil => rfl
    | cons a t' =>
      rw [hfree] at hsorted
      have : q < a := (List.chain'_cons.mp hsorted).1
      rw [List.takeWhile_cons]
      have hq : (a ≤ q : Bool) = false := by simp; omega
      rw [hq]
      simp
  have hdrop : t.dropWhile (fun b => b ≤ q) = t := by
    cases t with
    | nil => rfl
    | cons a t' =>
      rw [hfree] at hsorted
      have : q < a := (List.chain'_cons.mp hsorted).1
      rw [List.dropWhile_cons]
      have hq : (a ≤ q : Bool) = false := by simp; omega
      rw [hq]
      simp
  simp only [htake, hdrop, List.nil_append]
  rw [← hfree]


/-- Witness for the amended C9 at a pool with free list `[1000, 1008]`. -/
theorem claim_C9_witness :
    c9state.freeList = 1000 :: [1008] ∧
    sortedLt c9state.freeList ∧
    ((poolOrderedMalloc c9state none).1 = some 1000 ∧
     poolOrderedFree (poolOrderedMalloc c9state none).2 1000 = c9state) :=
  ⟨rfl, by decide, claim_C9 c9state 1000 [1008] rfl (by decide)⟩

/-- Counterexample to C9 as stated over every ordered pool state: on an empty
pool the allocation grows, and after `ordered_free(ordered_malloc())` the
free list holds a whole region's worth of chunks, not the original empty
list. -/
theorem claim_C9_cex :
    poolOrderedFree (poolOrderedMalloc (mkPool 8 2 0) (some 1000)).2
        ((poolOrderedMalloc (mkPool 8 2 0) (some 1000)).1.getD 0) ≠
      mkPool 8 2 0 := by
  decide

/-! ## C5: characterising `malloc_n`

A "run of `n` chunks" in the free list is `n` consecutive list entries whose
successive addresses differ by exactly `P`. -/


/-- A non-empty adjacent run is an arithmetic progression of stride `P`. -/
theorem adjRun_eq_chunkSeq {P : Nat} :
    ∀ {run : List Nat} {q : Nat}, adjRun P run → run.head? = some q →
      run = chunkSeq q run.length P := by
  intro run
  induction run with
  | nil => intro q h hq; simp at hq
  | cons a t ih =>
    intro q hadj hq
    have ha : a = q := by simpa using hq
    subst ha
    cases t with
    | nil =>
      have : List.range 1 = [0] := rfl
      simp [chunkSeq, this]
    | cons b t' =>
      have h1 := List.chain'_cons.mp hadj
      have hb : b = a + P := h1.1
      have ht := ih h1.2 rfl
      rw [List.length_cons, chunkSeq_succ]
      congr 1
      rw [← hb]
      exact ht

theorem runCheck_inr {P c : Nat} :
    ∀ {k : Nat} {rest rem : List Nat}, runCheck P c k rest = Sum.inr rem →
      rest = chunkSeq (c + P) k P ++ rem := by
  intro k
  induction k generalizing c with
  | zero =>
    intro rest rem h
    rw [runCheck] at h
    simp only [Sum.inr.injEq] at h
    subst h
    simp [chunkSeq]
  | succ k ih =>
    intro rest rem h
    cases rest with
    | nil => rw [runCheck] at h; exact absurd h (by simp)
    | cons b t =>
      rw [runCheck] at h
      by_cases hb : b = c + P
      · rw [if_pos hb] at h
        rcases hrc : runCheck P b k t with s | rem'
        · rw [hrc] at h; exact absurd h (by simp)
        · rw [hrc] at h
          simp only [Sum.inr.injEq] at h
          subst h
          rw [chunkSeq_succ]
          rw [List.cons_append]
          rw [← hb, ih hrc, hb]
      · rw [if_neg hb] at h
        exact absurd h (by simp)

theorem runCheck_inl {P c : Nat} :
    ∀ {k : Nat} {rest sc rem : List Nat}, runCheck P c k rest = Sum.inl (sc, rem) →
      rest = sc ++ rem ∧ sc = chunkSeq (c + P) sc.length P ∧ sc.length < k ∧
        ∀ b ∈ rem.head?, b ≠ c + (sc.length + 1) * P := by
  intro k
  induction k generalizing c with
  | zero => intro rest sc rem h; rw [runCheck] at h; exact absurd h (by simp)
  | succ k ih =>
    intro rest sc rem h
    cases rest with
    | nil =>
      rw [runCheck] at h
      simp only [Sum.inl.injEq, Prod.mk.injEq] at h
      rcases h with ⟨hsc, hrem⟩
      subst hsc; subst hrem
      exact ⟨rfl, by simp [chunkSeq], by simp, by simp⟩
    | cons b t =>
      rw [runCheck] at h
      by_cases hb : b = c + P
      · rw [if_pos hb] at h
        rcases hrc : runCheck P b k t with s | rem'
        · rw [hrc] at h
          simp only [Sum.inl.injEq, Prod.mk.injEq] at h
          rcases h with ⟨hsc, hrem⟩
          rcases ih hrc with ⟨ht, hs1, hlen, hbrk⟩
          subst hsc; subst hrem
          refine ⟨by rw [List.cons_append, ht], ?_,
            by simp only [List.length_cons]; omega, ?_⟩
          · rw [List.length_cons, chunkSeq_succ, ← hb]
            exact congrArg (List.cons b) hs1
          · intro x hx
            have hb2 := hbrk x hx
            rw [List.length_cons]
            intro hEq
            apply hb2
            rw [hEq, hb]
            ring
        · rw [hrc] at h
          exact absurd h (by simp)
      · rw [if_neg hb] at h
        simp only [Sum.inl.injEq, Prod.mk.injEq] at h
        rcases h with ⟨hsc, hrem⟩
        subst hsc; subst hrem
        refine ⟨rfl, by simp [chunkSeq], by simp, ?_⟩
        intro x hx
        have hxb : b = x := by simpa using hx
        intro hEq
        apply hb
        rw [← hxb] at hEq
        rw [hEq]
        simp

theorem chunkSeq_getElemQ (base m P j : Nat) (hj : j < m) :
    (chunkSeq base m P)[j]? = some (base + j * P) := by
  simp [chunkSeq, hj]

/-- In a split `l = pre ++ run ++ post` the run occupies positions
`|pre| + j`. -/
theorem split_getElemQ {l pre run post : List Nat} (hsplit : l = pre ++ run ++ post)
    (j : Nat) (hj : j < run.length) : l[pre.length + j]? = run[j]? := by
  subst hsplit
  rw [List.append_assoc, List.getElem?_append_right (by omega)]
  have h1 : pre.length + j - pre.length = j := by omega
  rw [h1, List.getElem?_append_left hj]

/-- Adjacent positions inside a contiguous run differ by exactly `P`. -/
theorem adjRun_getElemQ {P : Nat} {run : List Nat} (hadj : adjRun P run)
    (j : Nat) (hj : j + 1 < run.length) :
    run[j + 1]? = (run[j]?.map (· + P)) := by
  rw [List.getElem?_eq_getElem (by omega), List.getElem?_eq_getElem (by omega)]
  have h2 := List.chain'_iff_get.mp hadj j (by omega)
  simp only [List.get_eq_getElem] at h2
  rw [h2]
  rfl

/-- No contiguous run of `n` chunks can start inside a maximal contiguous
segment that broke before reaching length `n`. -/
theorem no_run_in_broken_seg {P n L a : Nat} {rem : List Nat}
    (hL : L + 2 ≤ n)
    (hbrk : ∀ b ∈ rem.head?, b ≠ a + (L + 1) * P)
    (i : Nat) (hi : i ≤ L) :
    ¬ HasRunAt P n (chunkSeq a (L + 1) P ++ rem) i := by
  rintro ⟨pre, run, post, hsplit, hlenp, hlenr, hadj⟩
  set l := chunkSeq a (L + 1) P ++ rem with hl
  have hlen : l.length = (L + 1) + rem.length := by
    rw [hl, List.length_append, chunkSeq_length]
  have hlen2 : l.length = i + n + post.length := by
    rw [hsplit]
    simp only [List.length_append]
    omega
  have hremlen : 1 ≤ rem.length := by omega
  rcases rem with _ | ⟨b, rem'⟩
  · simp at hremlen
  have hbneq : b ≠ a + (L + 1) * P := hbrk b rfl
  -- position L and L + 1 of `l`
  have hgetL : l[L]? = some (a + L * P) := by
    rw [hl, List.getElem?_append_left (by rw [chunkSeq_length]; omega)]
    exact chunkSeq_getElemQ a (L + 1) P L (by omega)
  have hgetL1 : l[L + 1]? = some b := by
    rw [hl, List.getElem?_append_right (by rw [chunkSeq_length])]
    rw [chunkSeq_length]
    have h1 : L + 1 - (L + 1) = 0 := by omega
    rw [h1]
    simp
  -- both positions are inside the run
  have hrunL := split_getElemQ hsplit (L - i) (by omega)
  have hrunL1 := split_getElemQ hsplit (L - i + 1) (by omega)
  rw [hlenp] at hrunL hrunL1
  have hiL : i + (L - i) = L := by omega
  have hiL1 : i + (L - i + 1) = L + 1 := by omega
  rw [hiL] at hrunL
  rw [hiL1] at hrunL1
  have hadj1 := adjRun_getElemQ hadj (L - i) (by omega)
  rw [← hrunL, ← hrunL1, hgetL, hgetL1] at hadj1
  have hb2 : b = a + L * P + P := by
    have hmap : Option.map (fun x => x + P) (some (a + L * P)) = some (a + L * P + P) := rfl
    rw [hmap] at hadj1
    exact Option.some_inj.mp hadj1
  apply hbneq
  rw [hb2]
  ring

/-- Push a run-at-position fact across a leading segment. -/
theorem hasRunAt_append_right {P n : Nat} {seg rem : List Nat} {i : Nat}
    (h : HasRunAt P n (seg ++ rem) i) (hi : seg.length ≤ i) :
    HasRunAt P n rem (i - seg.length) := by
  rcases h with ⟨pre, run, post, hsplit, hlenp, hlenr, hadj⟩
  have hdrop : rem = pre.drop seg.length ++ run ++ post := by
    have h1 : (seg ++ rem).drop seg.length = rem := by
      rw [List.drop_append_of_le_length (le_refl _)]
      simp
    rw [← h1, hsplit]
    rw [List.append_assoc, List.drop_append_of_le_length (by omega),
      ← List.append_assoc]
  exact ⟨pre.drop seg.length, run, post, hdrop, by rw [List.length_drop]; omega,
    hlenr, hadj⟩

/-- Main characterisation of the fuelled search loop of `malloc_n`. -/
theorem mallocNGo_spec {P n : Nat} (hn : 1 ≤ n) :
    ∀ (fuel : Nat) (l : List Nat), l.length ≤ fuel →
      (mallocNGo P n fuel l = none → ∀ i, ¬ HasRunAt P n l i) ∧
      (∀ pre q rem, mallocNGo P n fuel l = some (pre, q, rem) →
        l = pre ++ chunkSeq q n P ++ rem ∧ ∀ i, i < pre.length → ¬ HasRunAt P n l i) := by
  intro fuel
  induction fuel with
  | zero =>
    intro l hlen
    have hl : l = [] := by
      cases l with
      | nil => rfl
      | cons a t => simp at hlen
    subst hl
    constructor
    · rintro - i ⟨pre, run, post, hsplit, hlenp, hlenr, hadj⟩
      have hh := congrArg List.length hsplit
      simp only [List.length_nil, List.length_append] at hh
      omega
    · intro pre q rem h
      rw [mallocNGo] at h
      exact absurd h (by simp)
  | succ fuel ih =>
    intro l hlen
    cases l with
    | nil =>
      constructor
      · rintro - i ⟨pre, run, post, hsplit, hlenp, hlenr, hadj⟩
        have hh := congrArg List.length hsplit
        simp only [List.length_nil, List.length_append] at hh
        omega
      · intro pre q rem h
        rw [mallocNGo] at h
        exact absurd h (by simp)
    | cons a rest =>
      rcases hrc : runCheck P a (n - 1) rest with s | rem0
      · -- probe failed: broken segment `a :: s.1`, search resumes at `s.2`
        rcases runCheck_inl hrc with ⟨hrest, hsc, hsclen, hbrk⟩
        have hn2 : s.1.length + 2 ≤ n := by omega
        have hseg : a :: s.1 = chunkSeq a (s.1.length + 1) P := by
          rw [chunkSeq_succ, ← hsc]
        have hlsplit : a :: rest = chunkSeq a (s.1.length + 1) P ++ s.2 := by
          rw [← hseg, List.cons_append, ← hrest]
        have hremlen : s.2.length ≤ fuel := by
          have h1 : rest.length = s.1.length + s.2.length := by
            rw [hrest, List.length_append]
          simp only [List.length_cons] at hlen
          omega
        have ihrem := ih s.2 hremlen
        constructor
        · intro h i
          rcases hgo : mallocNGo P n fuel s.2 with - | ⟨pre', q', rem'⟩
          · rcases le_or_lt i s.1.length with hi | hi
            · rw [hlsplit]
              exact no_run_in_broken_seg hn2 hbrk i hi
            · intro hrun
              rw [hlsplit] at hrun
              have hrem := hasRunAt_append_right hrun (by rw [chunkSeq_length]; omega)
              exact (ihrem.1 hgo) _ hrem
          · exfalso
            simp only [mallocNGo, hrc, hgo] at h
            exact Option.noConfusion h
        · intro pre q rem h
          rcases hgo : mallocNGo P n fuel s.2 with - | ⟨pre', q', rem'⟩
          · exfalso
            simp only [mallocNGo, hrc, hgo] at h
            exact Option.noConfusion h
          · simp only [mallocNGo, hrc, hgo, Option.some.injEq, Prod.mk.injEq] at h
            rcases h with ⟨hpre, hq, hrem⟩
            rcases ihrem.2 pre' q' rem' hgo with ⟨hsplit', hmin'⟩
            subst hpre; subst hq; subst hrem
            constructor
            · rw [hlsplit, hsplit']
              rw [← hseg]
              simp [List.append_assoc]
            · intro i hi hrun
              simp only [List.length_cons, List.length_append] at hi
              rcases le_or_lt i s.1.length with hi2 | hi2
              · rw [hlsplit] at hrun
                exact no_run_in_broken_seg hn2 hbrk i hi2 hrun
              · rw [hlsplit] at hrun
                have hrem := hasRunAt_append_right hrun (by rw [chunkSeq_length]; omega)
                rw [chunkSeq_length] at hrem
                exact hmin' _ (by omega) hrem
      · -- probe succeeded: run at the head
        rcases runCheck_inr hrc with hrest
        have hsplit : a :: rest = chunkSeq a n P ++ rem0 := by
          have hn' : n = (n - 1) + 1 := by omega
          rw [hn', chunkSeq_succ, List.cons_append, ← hrest]
        constructor
        · intro h
          exfalso
          simp only [mallocNGo, hrc] at h
          exact Option.noConfusion h
        · intro pre q rem h
          simp only [mallocNGo, hrc, Option.some.injEq, Prod.mk.injEq] at h
          rcases h with ⟨hpre, hq, hrem⟩
          subst hpre; subst hq; subst hrem
          refine ⟨by rw [hsplit]; simp, ?_⟩
          intro i hi
          simp only [List.length_nil] at hi
          omega

/-- `malloc_n` at the list level, packaged: failure leaves the list unchanged. -/
theorem mallocN_none_eq {n P : Nat} {l : List Nat} (h : (mallocN n P l).1 = none) :
    mallocN n P l = (none, l) := by
  rw [mallocN] at h ⊢
  by_cases hn : n = 0
  · rw [if_pos hn] at h ⊢
  · rw [if_neg hn] at h ⊢
    rcases hgo : mallocNGo P n l.length l with - | ⟨pre, q, rem⟩
    · rfl
    · rw [hgo] at h
      simp at h

theorem mallocN_none_iff {n P : Nat} (hn : 1 ≤ n) (l : List Nat) :
    (mallocN n P l).1 = none ↔ ¬ HasRun P n l := by
  have hspec := @mallocNGo_spec P n hn l.length l (le_refl _)
  rw [mallocN, if_neg (by omega)]
  rcases hgo : mallocNGo P n l.length l with - | ⟨pre, q, rem⟩
  · simp only [true_iff]
    intro hcon
    rcases hcon with ⟨i, hi⟩
    exact hspec.1 hgo i hi
  · rcases hspec.2 pre q rem hgo with ⟨hsplit, -⟩
    have hrun : HasRun P n l :=
      ⟨pre.length, pre, chunkSeq q n P, rem, hsplit, rfl, chunkSeq_length q n P,
        chunkSeq_chain_adj n⟩
    constructor
    · intro hc
      exact absurd hc (by simp)
    · intro hc
      exact absurd hrun hc

theorem mallocN_some_spec {n P : Nat} (hn : 1 ≤ n) {l l' : List Nat} {q : Nat}
    (h : mallocN n P l = (some q, l')) :
    ∃ pre rem, l = pre ++ chunkSeq q n P ++ rem ∧ l' = pre ++ rem ∧
      (∀ i, i < pre.length → ¬ HasRunAt P n l i) := by
  have hspec := @mallocNGo_spec P n hn l.length l (le_refl _)
  rw [mallocN, if_neg (by omega)] at h
  rcases hgo : mallocNGo P n l.length l with - | ⟨pre, q0, rem⟩
  · rw [hgo] at h
    simp at h
  · rw [hgo] at h
    simp only [Prod.mk.injEq, Option.some.injEq] at h
    rcases h with ⟨hq, hl'⟩
    subst hq
    rcases hspec.2 pre q0 rem hgo with ⟨hsplit, hmin⟩
    exact ⟨pre, rem, hsplit, hl'.symm, hmin⟩

/-! ## The pool invariant -/


theorem allocSize_pos {R : Nat} (hR : 0 < R) : 0 < allocSize R :=
  Nat.lcm_pos hR (by decide)

theorem sizeofVoidPtr_dvd_allocSize (R : Nat) : minAllocSize ∣ allocSize R :=
  Nat.dvd_lcm_right _ _

/-- Chunk positions and the `Block.chunks` enumeration coincide for
well-formed blocks. -/
theorem isChunkOf_iff_mem_chunks {P : Nat} {b : Block} (hP : 0 < P)
    (hwf : blockWF P b) (c : Nat) :
    isChunkOf P b c ↔ c ∈ b.chunks P := by
  rcases hwf with ⟨hbase, helt, hmod, hsize⟩
  have hd2 := Nat.div_add_mod b.elementSize P
  rw [hmod, Nat.add_zero] at hd2
  rw [Block.chunks, mem_chunkSeq]
  constructor
  · rintro ⟨h1, h2, h3⟩
    have hd1 := Nat.div_add_mod (c - b.base) P
    rw [h3, Nat.add_zero] at hd1
    have hcb : c - b.base < b.elementSize := by
      rw [Block.endPtr] at h2
      omega
    refine ⟨(c - b.base) / P, ?_, ?_⟩
    · by_contra hge
      push_neg at hge
      have hmul : P * (b.elementSize / P) ≤ P * ((c - b.base) / P) :=
        Nat.mul_le_mul_left P hge
      omega
    · rw [Nat.mul_comm]
      omega
  · rintro ⟨j, hj, rfl⟩
    have h5a : (j + 1) * P ≤ (b.elementSize / P) * P :=
      Nat.mul_le_mul_right P (by omega)
    have h5b : (j + 1) * P = j * P + P := by ring
    have h6 : b.elementSize / P * P = b.elementSize := by
      rw [Nat.mul_comm]
      omega
    refine ⟨by omega, by rw [Block.endPtr]; omega, ?_⟩
    have h7 : b.base + j * P - b.base = j * P := by omega
    rw [h7]
    simp [Nat.mul_mod_left]

/-- Any two members of an ordered block list are related one way or the
other, or are the same entry. -/
theorem pairwise_mem_or {α : Type} {r : α → α → Prop} :
    ∀ {l : List α}, List.Pairwise r l → ∀ {a b : α}, a ∈ l → b ∈ l →
      r a b ∨ r b a ∨ a = b := by
  intro l
  induction l with
  | nil => intro _ a b ha; simp at ha
  | cons x t ih =>
    intro hp a b ha hb
    rcases List.pairwise_cons.mp hp with ⟨hx, ht⟩
    rcases List.mem_cons.mp ha with rfl | ha'
    · rcases List.mem_cons.mp hb with rfl | hb'
      · right; right; rfl
      · left; exact hx b hb'
    · rcases List.mem_cons.mp hb with rfl | hb'
      · right; left; exact hx a ha'
      · exact ih ht ha' hb'


theorem blocksOrdered_pairwise {bs : List Block} (h : blocksOrdered bs) :
    List.Pairwise (fun x y => x.base + x.size ≤ y.base) bs :=
  List.chain'_iff_pairwise.mp h

theorem ctLcmVal_eq : ctLcmVal = 8 := rfl

theorem podOverhead_eq : podOverhead = 16 := rfl

theorem sortedLt.sublist {l l' : List Nat} (h : sortedLt l) (hs : List.Sublist l' l) :
    sortedLt l' :=
  List.Chain'.sublist h hs

/-- The region record created by a grow with `k` chunks is well formed. -/
theorem blockWF_node {P ptr k : Nat} (hP : 0 < P) (hptr : 0 < ptr) (hk : 0 < k) :
    blockWF P ⟨ptr, k * P + ctLcmVal + sizeofSizeT⟩ := by
  refine ⟨hptr, ?_, ?_, ?_⟩
  · show 0 < k * P + ctLcmVal + sizeofSizeT - sizeofSizeT - ctLcmVal
    rw [ctLcmVal_eq]
    show 0 < k * P + 8 + 8 - 8 - 8
    have : 0 < k * P := Nat.mul_pos hk hP
    omega
  · show (k * P + ctLcmVal + sizeofSizeT - sizeofSizeT - ctLcmVal) % P = 0
    rw [ctLcmVal_eq]
    show (k * P + 8 + 8 - 8 - 8) % P = 0
    have h1 : k * P + 8 + 8 - 8 - 8 = k * P := by omega
    rw [h1]
    simp [Nat.mul_mod_left]
  · show _ = (k * P + ctLcmVal + sizeofSizeT - sizeofSizeT - ctLcmVal) + podOverhead
    rw [ctLcmVal_eq, podOverhead_eq]
    show k * P + 8 + 8 = (k * P + 8 + 8 - 8 - 8) + 16
    omega

theorem node_elementSize {ptr k P : Nat} :
    (Block.mk ptr (k * P + ctLcmVal + sizeofSizeT)).elementSize = k * P := by
  show k * P + ctLcmVal + sizeofSizeT - sizeofSizeT - ctLcmVal = k * P
  rw [ctLcmVal_eq]
  show k * P + 8 + 8 - 8 - 8 = k * P
  omega

theorem node_chunks {ptr k P : Nat} (hP : 0 < P) :
    (Block.mk ptr (k * P + ctLcmVal + sizeofSizeT)).chunks P = chunkSeq ptr k P := by
  rw [Block.chunks, node_elementSize, Nat.mul_div_cancel k hP]

/-- Chunk count of the segregated chain of a region of `k·P` bytes. -/
theorem seg_count {k P : Nat} (hP : 0 < P) (hk : 0 < k) :
    (k * P - P) / P + 1 = k := by
  have h1 : k * P - P = (k - 1) * P := by
    have : k * P = (k - 1) * P + P := by
      have hk1 : k = (k - 1) + 1 := by omega
      calc k * P = ((k - 1) + 1) * P := by rw [← hk1]
        _ = (k - 1) * P + P := by ring
    omega
  rw [h1, Nat.mul_div_cancel _ hP]
  omega

/-! ### Sortedness of the ordered splices -/

theorem sortedLt_addOrderedBlock {free : List Nat} {block sz P : Nat} (hP : 0 < P)
    (hfree : sortedLt free) (hnb : block ∉ free)
    (hfit : ∀ a ∈ free, block < a → block + ((sz - P) / P) * P < a) :
    sortedLt (addOrderedBlock block sz P free) := by
  rw [addOrderedBlock_eq]
  refine chain'_lt_splice free _ block hfree (chunkSeq_chain_lt hP _) ?_ ?_
  · intro a ha hle m hm
    rcases mem_chunkSeq.mp hm with ⟨j, hj, rfl⟩
    have hne : a ≠ block := fun hEq => hnb (hEq ▸ ha)
    omega
  · intro a ha hgt m hm
    rcases mem_chunkSeq.mp hm with ⟨j, hj, rfl⟩
    have hfit' := hfit a ha hgt
    have hmul : j * P ≤ (sz - P) / P * P := Nat.mul_le_mul_right P (by omega)
    omega

theorem sortedLt_orderedFree {free : List Nat} {c : Nat}
    (hfree : sortedLt free) (hnc : c ∉ free) :
    sortedLt (storageOrderedFree c free) := by
  rw [storageOrderedFree_eq]
  have h := chain'_lt_splice free [c] c hfree (by simp) ?_ ?_
  · simpa using h
  · intro a ha hle m hm
    have hmc : m = c := by simpa using hm
    have hne : a ≠ c := fun hEq => hnc (hEq ▸ ha)
    omega
  · intro a ha hgt m hm
    have hmc : m = c := by simpa using hm
    omega

/-! ### Ordered insertion into the block list -/

theorem insertBlockGo_headq (node prev : Block) (t : List Block) :
    (insertBlockGo node prev t).head? = some prev := by
  cases t with
  | nil => rfl
  | cons b t' =>
    rw [insertBlockGo]
    by_cases hb : b.base > node.base
    · rw [if_pos hb]
      rfl
    · rw [if_neg hb]
      rfl

theorem insertBlockGo_chain {node : Block} (hnsz : 0 < node.size) :
    ∀ (t : List Block) (prev : Block),
      List.Chain' (fun x y => x.base + x.size ≤ y.base) (prev :: t) →
      prev.base ≤ node.base →
      (∀ b ∈ prev :: t, b.base + b.size ≤ node.base ∨ node.base + node.size ≤ b.base) →
      List.Chain' (fun x y => x.base + x.size ≤ y.base) (insertBlockGo node prev t) := by
  intro t
  induction t with
  | nil =>
    intro prev hchain hple hdisj
    rw [insertBlockGo]
    have hd := hdisj prev (by simp)
    have hprev : prev.base + prev.size ≤ node.base := by
      rcases hd with hd | hd
      · exact hd
      · omega
    exact List.chain'_cons.mpr ⟨hprev, by simp⟩
  | cons b t' ih =>
    intro prev hchain hple hdisj
    rw [insertBlockGo]
    rcases List.chain'_cons.mp hchain with ⟨hpb, hbt⟩
    by_cases hb : b.base > node.base
    · rw [if_pos hb]
      have hdp := hdisj prev (by simp)
      have hdb := hdisj b (by simp)
      have hpn : prev.base + prev.size ≤ node.base := by
        rcases hdp with hd | hd
        · exact hd
        · omega
      have hnb : node.base + node.size ≤ b.base := by
        rcases hdb with hd | hd
        · omega
        · exact hd
      exact List.chain'_cons.mpr ⟨hpn, List.chain'_cons.mpr ⟨hnb, hbt⟩⟩
    · rw [if_neg hb]
      refine List.chain'_cons'.mpr ⟨?_, ?_⟩
      · intro y hy
        rw [insertBlockGo_headq] at hy
        have hyb : b = y := by simpa using hy
        rw [← hyb]
        exact hpb
      · exact ih b hbt (by omega) (fun x hx => hdisj x (List.mem_cons_of_mem _ hx))

theorem blocksOrdered_insert {bs : List Block} {node : Block}
    (hbs : blocksOrdered bs) (hnsz : 0 < node.size)
    (hdisj : ∀ b ∈ bs, b.base + b.size ≤ node.base ∨ node.base + node.size ≤ b.base) :
    blocksOrdered (insertBlockOrdered node bs) := by
  cases bs with
  | nil => simp [insertBlockOrdered, blocksOrdered]
  | cons b t =>
    rw [insertBlockOrdered]
    by_cases hb : b.base > node.base
    · rw [if_pos hb]
      have hdb := hdisj b (by simp)
      have hnb : node.base + node.size ≤ b.base := by
        rcases hdb with hd | hd
        · omega
        · exact hd
      exact List.chain'_cons.mpr ⟨hnb, hbs⟩
    · rw [if_neg hb]
      exact insertBlockGo_chain hnsz t b hbs (by omega) hdisj

theorem mem_insertBlockOrdered {bs : List Block} {node b : Block} :
    b ∈ insertBlockOrdered node bs ↔ b = node ∨ b ∈ bs := by
  rw [(insertBlockOrdered_perm node bs).mem_iff]
  simp

theorem endPtr_lt_size {P : Nat} {b : Block} (hwf : blockWF P b) :
    b.endPtr < b.base + b.size := by
  rw [Block.endPtr]
  have h := hwf.2.2.2
  rw [podOverhead_eq] at h
  omega

/-- The `next_size` update of the single-chunk grow paths stays positive. -/
theorem grownNextSize_pos {n maxSize P R : Nat} (hR : 0 < R) (hP : 0 < P)
    (hn : 0 < n) : 0 < grownNextSize n maxSize P R := by
  rw [grownNextSize]
  by_cases h0 : maxSize = 0
  · rw [if_pos h0]
    omega
  · rw [if_neg h0]
    by_cases hlt : n * P / R < maxSize
    · rw [if_pos hlt]
      have h1 : P / R ≤ n * P / R :=
        Nat.div_le_div_right (Nat.le_mul_of_pos_left P hn)
      have h2 : P / R < maxSize := by omega
      have h3 : P < maxSize * R := by
        rw [Nat.div_lt_iff_lt_mul hR] at h2
        exact h2
      have h4 : 1 ≤ maxSize * R / P := by
        rw [Nat.le_div_iff_mul_le hP]
        omega
      have h5 : 0 < n * 2 := by omega
      omega
    · rw [if_neg hlt]
      exact hn

/-- Free chunks lie outside any region that is disjoint from all blocks. -/
theorem fresh_chunk_bounds {s : PoolState} (hinv : Inv s) {ptr sz : Nat}
    (hdisj : ∀ b ∈ s.blocks, b.base + b.size ≤ ptr ∨ ptr + sz ≤ b.base)
    {a : Nat} (ha : a ∈ s.freeList) : a < ptr ∨ ptr + sz ≤ a := by
  obtain ⟨b, hb, hab⟩ := hinv.2.2.2.2.2.2 a ha
  have hwf := hinv.2.2.2.2.2.1 b hb
  have hend := endPtr_lt_size hwf
  rcases hdisj b hb with hd | hd
  · left
    have h1 : a < b.endPtr := hab.2.1
    omega
  · right
    have h1 : b.base ≤ a := hab.1
    omega

/-- Key gap property: if a whole aligned run of `num` chunks of one block is
live, every free chunk above the run start lies above the run end. -/
theorem run_gap {s : PoolState} (hinv : Inv s) {p num : Nat} (hnum : 0 < num)
    {b : Block} (hb : b ∈ s.blocks)
    (hrun : ∀ j, j < num →
      isChunkOf (allocSize s.requestedSize) b (p + j * allocSize s.requestedSize) ∧
      p + j * allocSize s.requestedSize ∉ s.freeList) :
    ∀ a ∈ s.freeList, p < a → p + (num - 1) * allocSize s.requestedSize < a := by
  set P := allocSize s.requestedSize with hPdef
  have hP : 0 < P := allocSize_pos hinv.1
  intro a ha hpa
  obtain ⟨b', hb', ha'⟩ := hinv.2.2.2.2.2.2 a ha
  have hwb := hinv.2.2.2.2.2.1 b hb
  have hwb' := hinv.2.2.2.2.2.1 b' hb'
  have hpc := (hrun 0 hnum).1
  have hpc' : isChunkOf P b p := by
    simpa using hpc
  rcases pairwise_mem_or (blocksOrdered_pairwise hinv.2.2.2.2.1) hb hb'
    with hlt | hgt | heq
  · -- `b` lies wholly before `b'`
    have h1 : p + (num - 1) * P < b.endPtr := (hrun (num - 1) (by omega)).1.2.1
    have h2 := endPtr_lt_size hwb
    have h3 : b'.base ≤ a := ha'.1
    omega
  · -- `b'` lies wholly before `b`: impossible since `p < a`
    exfalso
    have h1 : a < b'.endPtr := ha'.2.1
    have h2 := endPtr_lt_size hwb'
    have h3 : b.base ≤ p := hpc'.1
    omega
  · -- same block: alignment forces `a` past the run
    subst heq
    have hamod : (a - b.base) % P = 0 := ha'.2.2
    have hpmod : (p - b.base) % P = 0 := hpc'.2.2
    have hd1 := Nat.div_add_mod (a - b.base) P
    have hd2 := Nat.div_add_mod (p - b.base) P
    rw [hamod, Nat.add_zero] at hd1
    rw [hpmod, Nat.add_zero] at hd2
    have hbase_a : b.base ≤ a := ha'.1
    have hbase_p : b.base ≤ p := hpc'.1
    set qa := (a - b.base) / P with hqadef
    set qp := (p - b.base) / P with hqpdef
    have hqa : a = b.base + P * qa := by omega
    have hqp : p = b.base + P * qp := by omega
    have hqlt : qp < qa := by
      by_contra hc
      push_neg at hc
      have : P * qa ≤ P * qp := Nat.mul_le_mul_left P hc
      omega
    by_contra hcon
    push_neg at hcon
    have hsub : (qa - qp) * P = P * qa - P * qp := by
      rw [Nat.sub_mul, Nat.mul_comm P qa, Nat.mul_comm P qp]
    have hjlt : qa - qp < num := by
      have h9 : P * qa ≤ P * qp + (num - 1) * P := by omega
      have h10 : (qa - qp) * P ≤ (num - 1) * P := by omega
      have h11 : qa - qp ≤ num - 1 := Nat.le_of_mul_le_mul_right h10 hP
      omega
    apply (hrun (qa - qp) hjlt).2
    have hEq : p + (qa - qp) * P = a := by omega
    rw [hEq]
    exact ha

/-! ### Invariant preservation, operation by operation -/

theorem addOrderedBlock_nil (block sz P : Nat) :
    addOrderedBlock block sz P [] = chunkSeq block ((sz - P) / P + 1) P := by
  simp [addOrderedBlock, findPrevSplit]

/-- Computed form of `ordered_malloc_need_resize` on a successful grow from
an empty free list. -/
theorem orderedMallocNeedResize_eq {s : PoolState} {ptr : Nat}
    (hfree0 : s.freeList = []) (hN : 0 < s.nextSize)
    (hP : 0 < allocSize s.requestedSize) :
    orderedMallocNeedResize s (some ptr) =
      (some ptr,
       { s with
         freeList := chunkSeq (ptr + allocSize s.requestedSize) (s.nextSize - 1)
           (allocSize s.requestedSize),
         blocks := insertBlockOrdered
           ⟨ptr, podSize s.nextSize (allocSize s.requestedSize)⟩ s.blocks,
         nextSize := grownNextSize s.nextSize s.maxSize (allocSize s.requestedSize)
           s.requestedSize }) := by
  have hns : s.nextSize = (s.nextSize - 1) + 1 := by omega
  have hq : chunkSeq ptr s.nextSize (allocSize s.requestedSize) =
      ptr :: chunkSeq (ptr + allocSize s.requestedSize) (s.nextSize - 1)
        (allocSize s.requestedSize) := by
    conv_lhs => rw [hns]
    rw [chunkSeq_succ]
  simp only [orderedMallocNeedResize, podSize, hfree0]
  rw [addOrderedBlock_nil, node_elementSize, seg_count hP hN, hq]
  rfl

theorem inv_orderedMallocNeedResize {s : PoolState} {alloc : Option Nat}
    (hinv : Inv s) (hfree0 : s.freeList = [])
    (hfresh : FreshAlloc s alloc (podSize s.nextSize (allocSize s.requestedSize))) :
    Inv (orderedMallocNeedResize s alloc).2 := by
  rcases alloc with - | ptr
  · exact hinv
  · obtain ⟨hR, hN, hS, hsort, hbord, hwfall, hmem⟩ := hinv
    have hP : 0 < allocSize s.requestedSize := allocSize_pos hR
    obtain ⟨hptr, hdisj⟩ := hfresh
    rw [orderedMallocNeedResize_eq hfree0 hN hP]
    have hnode : blockWF (allocSize s.requestedSize)
        ⟨ptr, podSize s.nextSize (allocSize s.requestedSize)⟩ := by
      rw [podSize]
      exact blockWF_node hP hptr hN
    refine ⟨hR, ?_, hS, ?_, ?_, ?_, ?_⟩
    · exact grownNextSize_pos hR hP hN
    · exact chunkSeq_chain_lt hP _
    · refine blocksOrdered_insert hbord ?_ hdisj
      show 0 < podSize s.nextSize (allocSize s.requestedSize)
      rw [podSize, ctLcmVal_eq]
      omega
    · intro b hbmem
      rcases mem_insertBlockOrdered.mp hbmem with rfl | hbmem'
      · exact hnode
      · exact hwfall b hbmem'
    · intro c hc
      refine ⟨⟨ptr, podSize s.nextSize (allocSize s.requestedSize)⟩,
        mem_insertBlockOrdered.mpr (Or.inl rfl), ?_⟩
      rw [isChunkOf_iff_mem_chunks hP hnode]
      show c ∈ Block.chunks _ _
      rw [podSize, node_chunks hP]
      rcases mem_chunkSeq.mp hc with ⟨j, hj, rfl⟩
      rw [mem_chunkSeq]
      exact ⟨j + 1, by omega, by ring⟩

theorem inv_poolOrderedMalloc {s : PoolState} {alloc : Option Nat}
    (hinv : Inv s)
    (hfresh : FreshAlloc s alloc (podSize s.nextSize (allocSize s.requestedSize))) :
    Inv (poolOrderedMalloc s alloc).2 := by
  rcases hfl : s.freeList with - | ⟨a, t⟩
  · rw [poolOrderedMalloc, hfl]
    exact inv_orderedMallocNeedResize hinv hfl hfresh
  · rw [poolOrderedMalloc, hfl]
    obtain ⟨hR, hN, hS, hsort, hbord, hwfall, hmem⟩ := hinv
    rw [hfl] at hsort hmem
    exact ⟨hR, hN, hS, hsort.tail, hbord, hwfall,
      fun c hc => hmem c (List.mem_cons_of_mem a hc)⟩

theorem inv_poolOrderedFree {s : PoolState} {c : Nat} (hinv : Inv s)
    (hc : c ∉ s.freeList)
    (hcb : ∃ b ∈ s.blocks, isChunkOf (allocSize s.requestedSize) b c) :
    Inv (poolOrderedFree s c) := by
  obtain ⟨hR, hN, hS, hsort, hbord, hwfall, hmem⟩ := hinv
  refine ⟨hR, hN, hS, sortedLt_orderedFree hsort hc, hbord, hwfall, ?_⟩
  intro x hx
  have hx' := (storageOrderedFree_perm c s.freeList).mem_iff.mp hx
  rcases List.mem_cons.mp hx' with rfl | hx''
  · exact hcb
  · exact hmem x hx''

theorem inv_poolOrderedFreeN {s : PoolState} {p n : Nat} (hinv : Inv s)
    (hside : numChunksOf n s.requestedSize (allocSize s.requestedSize) = 0 ∨
      ∃ b ∈ s.blocks, ∀ j, j < numChunksOf n s.requestedSize (allocSize s.requestedSize) →
        isChunkOf (allocSize s.requestedSize) b (p + j * allocSize s.requestedSize) ∧
        p + j * allocSize s.requestedSize ∉ s.freeList) :
    Inv (poolOrderedFreeN s p n) := by
  set P := allocSize s.requestedSize with hPdef
  set num := numChunksOf n s.requestedSize P with hnumdef
  have hP : 0 < P := allocSize_pos hinv.1
  rcases hside with h0 | ⟨b, hb, hrun⟩
  · rw [poolOrderedFreeN, orderedFreeN, ← hnumdef, ← hPdef, h0]
    simp only [ne_eq, not_true_eq_false, if_false]
    exact hinv
  · by_cases h0 : num = 0
    · rw [poolOrderedFreeN, orderedFreeN, ← hnumdef, ← hPdef, h0]
      simp only [ne_eq, not_true_eq_false, if_false]
      exact hinv
    have hnum : 0 < num := by omega
    obtain ⟨hR, hN, hS, hsort, hbord, hwfall, hmem⟩ := hinv
    have hgap := run_gap ⟨hR, hN, hS, hsort, hbord, hwfall, hmem⟩ hnum hb hrun
    rw [poolOrderedFreeN, orderedFreeN, ← hnumdef, ← hPdef]
    rw [if_pos (by omega)]
    have hcnt : (num * P - P) / P + 1 = num := seg_count hP hnum
    have hp0 : p ∉ s.freeList := by
      have h := (hrun 0 hnum).2
      simpa using h
    refine ⟨hR, hN, hS, ?_, hbord, hwfall, ?_⟩
    · refine sortedLt_addOrderedBlock hP hsort hp0 ?_
      intro a ha hpa
      have hcnt2 : (num * P - P) / P = num - 1 := by omega
      rw [hcnt2]
      exact hgap a ha hpa
    · intro x hx
      have hx' := (addOrderedBlock_perm p (num * P) P s.freeList).mem_iff.mp hx
      rcases List.mem_append.mp hx' with hxc | hxf
      · rw [hcnt] at hxc
        rcases mem_chunkSeq.mp hxc with ⟨j, hj, rfl⟩
        exact ⟨b, hb, (hrun j hj).1⟩
      · exact hmem x hxf

theorem sortedLt_nodup {l : List Nat} (h : sortedLt l) : l.Nodup :=
  (List.chain'_iff_pairwise.mp h).nodup

/-- A chunk position's successor position still fits in the chunk area. -/
theorem chunk_next_le_end {P : Nat} {b : Block} {c : Nat} (hP : 0 < P)
    (hwf : blockWF P b) (hc : isChunkOf P b c) : c + P ≤ b.endPtr := by
  rcases hc with ⟨h1, h2, h3⟩
  rcases hwf with ⟨-, helt, hmod, -⟩
  have hd1 := Nat.div_add_mod (c - b.base) P
  have hd2 := Nat.div_add_mod b.elementSize P
  rw [h3, Nat.add_zero] at hd1
  rw [hmod, Nat.add_zero] at hd2
  rw [Block.endPtr] at h2 ⊢
  set m := (c - b.base) / P
  set k := b.elementSize / P
  have hmk : m < k := by
    by_contra hcn
    push_neg at hcn
    have : P * k ≤ P * m := Nat.mul_le_mul_left P hcn
    omega
  have : P * (m + 1) ≤ P * k := Nat.mul_le_mul_left P (by omega)
  have hmul : P * (m + 1) = P * m + P := by ring
  omega

/-- Two adjacent (stride-`P`) chunk positions belong to the same block. -/
theorem adjacent_chunks_same_block {s : PoolState} (hinv : Inv s)
    {b0 b2 : Block} {c : Nat} (hb0 : b0 ∈ s.blocks) (hb2 : b2 ∈ s.blocks)
    (h0 : isChunkOf (allocSize s.requestedSize) b0 c)
    (h2 : isChunkOf (allocSize s.requestedSize) b2
      (c + allocSize s.requestedSize)) : b0 = b2 := by
  have hP : 0 < allocSize s.requestedSize := allocSize_pos hinv.1
  have hwf0 := hinv.2.2.2.2.2.1 b0 hb0
  have hwf2 := hinv.2.2.2.2.2.1 b2 hb2
  rcases pairwise_mem_or (blocksOrdered_pairwise hinv.2.2.2.2.1) hb0 hb2
    with hlt | hgt | heq
  · exfalso
    have ha := chunk_next_le_end hP hwf0 h0
    have hb := h2.1
    have hc := endPtr_lt_size hwf0
    omega
  · exfalso
    have ha := h2.2.1
    have hb := endPtr_lt_size hwf2
    have hc := h0.1
    omega
  · exact heq

/-- A whole aligned run of free chunks lies in a single block. -/
theorem run_same_block {s : PoolState} (hinv : Inv s) {q num : Nat}
    (hnum : 0 < num)
    (hrunfree : ∀ j, j < num → q + j * allocSize s.requestedSize ∈ s.freeList) :
    ∃ b ∈ s.blocks, ∀ j, j < num →
      isChunkOf (allocSize s.requestedSize) b (q + j * allocSize s.requestedSize) := by
  set P := allocSize s.requestedSize with hPdef
  obtain ⟨b0, hb0, hq0⟩ := hinv.2.2.2.2.2.2 q (by
    have := hrunfree 0 hnum
    simpa using this)
  refine ⟨b0, hb0, ?_⟩
  intro j
  induction j with
  | zero =>
    intro h0
    simpa using hq0
  | succ j ih =>
    intro hj
    have hprev := ih (by omega)
    obtain ⟨b2, hb2, hcb2⟩ := hinv.2.2.2.2.2.2 (q + (j + 1) * P) (hrunfree (j + 1) hj)
    have hadj : isChunkOf P b2 ((q + j * P) + P) := by
      have hEq : q + (j + 1) * P = (q + j * P) + P := by ring
      rw [← hEq]
      exact hcb2
    have hsame := adjacent_chunks_same_block hinv hb0 hb2 hprev hadj
    rw [hsame]
    exact hcb2

/-! ### Computed forms of `ordered_malloc(n)` -/

theorem orderedMallocN_hit_eq {s : PoolState} {n q : Nat} {free' : List Nat}
    {alloc : Option Nat} {P num : Nat}
    (hP : P = allocSize s.requestedSize) (hnum : num = numChunksOf n s.requestedSize P)
    (hm : mallocN num P s.freeList = (some q, free')) :
    orderedMallocN s n alloc = (some q, { s with freeList := free' }) := by
  subst hP
  subst hnum
  simp only [orderedMallocN, hm]

theorem orderedMallocN_oom_eq {s : PoolState} {n : Nat} {P num ns1 : Nat}
    (hP : P = allocSize s.requestedSize) (hnum : num = numChunksOf n s.requestedSize P)
    (hns1 : ns1 = max s.nextSize num)
    (hm : (mallocN num P s.freeList).1 = none) :
    orderedMallocN s n none = (none, { s with nextSize := ns1 }) := by
  subst hP
  subst hnum
  subst hns1
  have hm2 := mallocN_none_eq hm
  simp only [orderedMallocN, hm2]

theorem orderedMallocN_grow_eq {s : PoolState} {n ptr : Nat} {P num ns1 : Nat}
    (hP : P = allocSize s.requestedSize) (hnum : num = numChunksOf n s.requestedSize P)
    (hns1 : ns1 = max s.nextSize num)
    (hm : (mallocN num P s.freeList).1 = none) :
    orderedMallocN s n (some ptr) =
      (some ptr,
       { s with
         freeList := if ns1 > num then
             addOrderedBlock (ptr + num * P) (ns1 * P - num * P) P s.freeList
           else s.freeList,
         blocks := insertBlockOrdered ⟨ptr, ns1 * P + ctLcmVal + sizeofSizeT⟩ s.blocks,
         nextSize := ns1 * 2 }) := by
  subst hP
  subst hnum
  subst hns1
  have hm2 := mallocN_none_eq hm
  simp only [orderedMallocN, hm2, node_elementSize]

/-- Invariant preservation for `pool::ordered_malloc(n)`. -/
theorem inv_orderedMallocN {s : PoolState} {n : Nat} {alloc : Option Nat}
    (hinv : Inv s)
    (hfresh : FreshAlloc s alloc
      (podSize (max s.nextSize (numChunksOf n s.requestedSize (allocSize s.requestedSize)))
        (allocSize s.requestedSize))) :
    Inv (orderedMallocN s n alloc).2 := by
  set P := allocSize s.requestedSize with hPdef
  set num := numChunksOf n s.requestedSize P with hnumdef
  set ns1 := max s.nextSize num with hns1def
  have hR := hinv.1
  have hP : 0 < P := allocSize_pos hR
  have hns1pos : 0 < ns1 := by
    have := hinv.2.1
    omega
  rcases hm : mallocN num P s.freeList with ⟨r, free0⟩
  rcases r with - | q
  · -- search failed; grow or fail
    have hm1 : (mallocN num P s.freeList).1 = none := by rw [hm]
    rcases alloc with - | ptr
    · rw [orderedMallocN_oom_eq hPdef hnumdef hns1def hm1]
      obtain ⟨hR, hN, hS, hsort, hbord, hwfall, hmem⟩ := hinv
      exact ⟨hR, by show 0 < ns1; omega, hS, hsort, hbord, hwfall, hmem⟩
    · rw [orderedMallocN_grow_eq hPdef hnumdef hns1def hm1]
      obtain ⟨hptr, hdisj⟩ := hfresh
      rw [podSize] at hdisj
      obtain ⟨hR, hN, hS, hsort, hbord, hwfall, hmem⟩ := hinv
      have hnode : blockWF P ⟨ptr, ns1 * P + ctLcmVal + sizeofSizeT⟩ :=
        blockWF_node hP hptr hns1pos
      have hfreshbound : ∀ a ∈ s.freeList, a < ptr ∨ ptr + (ns1 * P + ctLcmVal + sizeofSizeT) ≤ a :=
        fun a ha => fresh_chunk_bounds ⟨hR, hN, hS, hsort, hbord, hwfall, hmem⟩ hdisj ha
      have hmemnew : ∀ b ∈ insertBlockOrdered
          (⟨ptr, ns1 * P + ctLcmVal + sizeofSizeT⟩ : Block) s.blocks,
          blockWF P b := by
        intro b hb
        rcases mem_insertBlockOrdered.mp hb with rfl | hb'
        · exact hnode
        · exact hwfall b hb'
      refine ⟨hR, by show 0 < ns1 * 2; omega, hS, ?_, ?_, hmemnew, ?_⟩
      · -- sortedness of the (possibly augmented) free list
        by_cases hgt : ns1 > num
        · rw [if_pos hgt]
          have hsz : ns1 * P - num * P = (ns1 - num) * P := by
            rw [Nat.sub_mul]
          refine sortedLt_addOrderedBlock hP hsort ?_ ?_
          · intro hmem0
            rcases hfreshbound _ hmem0 with hb | hb
            · omega
            · have h1 : num * P < ns1 * P + ctLcmVal + sizeofSizeT := by
                have h2 : num * P ≤ ns1 * P := Nat.mul_le_mul_right P (by omega)
                rw [ctLcmVal_eq]
                omega
              omega
          · intro a ha hgt2
            rcases hfreshbound a ha with hb | hb
            · omega
            · have hcnt : ((ns1 * P - num * P) - P) / P = ns1 - num - 1 := by
                rw [hsz]
                have := seg_count hP (k := ns1 - num) (by omega)
                omega
              rw [hcnt]
              have h3 : num * P + (ns1 - num - 1) * P = (ns1 - 1) * P := by
                rw [← Nat.add_mul]
                have h4 : num + (ns1 - num - 1) = ns1 - 1 := by omega
                rw [h4]
              have h5 : (ns1 - 1) * P ≤ ns1 * P := Nat.mul_le_mul_right P (by omega)
              rw [ctLcmVal_eq] at hb
              omega
        · rw [if_neg hgt]
          exact hsort
      · refine blocksOrdered_insert hbord ?_ hdisj
        show 0 < ns1 * P + ctLcmVal + sizeofSizeT
        rw [ctLcmVal_eq]
        omega
      · -- free-list membership
        by_cases hgt : ns1 > num
        · rw [if_pos hgt]
          intro x hx
          have hx' := (addOrderedBlock_perm (ptr + num * P) (ns1 * P - num * P) P
            s.freeList).mem_iff.mp hx
          rcases List.mem_append.mp hx' with hxc | hxf
          · refine ⟨⟨ptr, ns1 * P + ctLcmVal + sizeofSizeT⟩,
              mem_insertBlockOrdered.mpr (Or.inl rfl), ?_⟩
            rw [isChunkOf_iff_mem_chunks hP hnode]
            show x ∈ Block.chunks _ _
            rw [node_chunks hP]
            have hsz : ns1 * P - num * P = (ns1 - num) * P := by rw [Nat.sub_mul]
            have hcnt : ((ns1 * P - num * P) - P) / P + 1 = ns1 - num := by
              rw [hsz]
              exact seg_count hP (by omega)
            rw [hcnt] at hxc
            rcases mem_chunkSeq.mp hxc with ⟨j, hj, rfl⟩
            rw [mem_chunkSeq]
            exact ⟨num + j, by omega, by ring⟩
          · obtain ⟨b, hb, hcb⟩ := hmem x hxf
            exact ⟨b, mem_insertBlockOrdered.mpr (Or.inr hb), hcb⟩
        · rw [if_neg hgt]
          intro x hx
          obtain ⟨b, hb, hcb⟩ := hmem x hx
          exact ⟨b, mem_insertBlockOrdered.mpr (Or.inr hb), hcb⟩
  · -- search succeeded: the run is unlinked from the free list
    have hnum1 : 1 ≤ num := by
      by_contra hc
      push_neg at hc
      have h0 : num = 0 := by omega
      rw [h0, mallocN] at hm
      simp at hm
    rw [orderedMallocN_hit_eq hPdef hnumdef hm]
    obtain ⟨pre, rem, hsplit, hfree0, -⟩ := mallocN_some_spec hnum1 hm
    obtain ⟨hR, hN, hS, hsort, hbord, hwfall, hmem⟩ := hinv
    have hsub : List.Sublist (pre ++ rem) s.freeList := by
      rw [hsplit, List.append_assoc]
      exact List.Sublist.append (List.Sublist.refl pre)
        (List.sublist_append_right _ _)
    refine ⟨hR, hN, hS, ?_, hbord, hwfall, ?_⟩
    · rw [hfree0]
      exact hsort.sublist hsub
    · intro c hc
      rw [hfree0] at hc
      exact hmem c (hsub.mem hc)

/-! ### The `release_memory` walk -/

theorem mem_chunks_bounds {P : Nat} {b : Block} {c : Nat} (hP : 0 < P)
    (hwf : blockWF P b) (hc : c ∈ b.chunks P) :
    b.base ≤ c ∧ c < b.endPtr := by
  have h := (isChunkOf_iff_mem_chunks hP hwf c).mpr hc
  exact ⟨h.1, h.2.1⟩

theorem chunks_ne_nil {P : Nat} {b : Block} (hP : 0 < P) (hwf : blockWF P b) :
    b.chunks P ≠ [] := by
  rw [Block.chunks]
  have hlen : (chunkSeq b.base (b.elementSize / P) P).length = b.elementSize / P :=
    chunkSeq_length _ _ _
  intro hc
  rw [hc] at hlen
  simp only [List.length_nil] at hlen
  have h1 : 0 < b.elementSize := hwf.2.1
  have h2 : b.elementSize % P = 0 := hwf.2.2.1
  have hd := Nat.div_add_mod b.elementSize P
  rw [h2, Nat.add_zero] at hd
  rw [← hlen] at hd
  simp at hd
  omega


theorem joinChunks_nil (P : Nat) : joinChunks P [] = [] := rfl

theorem joinChunks_cons (P : Nat) (b : Block) (tl : List Block) :
    joinChunks P (b :: tl) = b.chunks P ++ joinChunks P tl := rfl

theorem mem_joinChunks {P : Nat} {bs : List Block} {c : Nat} :
    c ∈ joinChunks P bs ↔ ∃ b ∈ bs, c ∈ b.chunks P := by
  rw [joinChunks, List.mem_flatten]
  constructor
  · rintro ⟨l, hl, hc⟩
    rcases List.mem_map.mp hl with ⟨b, hb, rfl⟩
    exact ⟨b, hb, hc⟩
  · rintro ⟨b, hb, hc⟩
    exact ⟨b.chunks P, List.mem_map.mpr ⟨b, hb, rfl⟩, hc⟩

theorem sortedLt_joinChunks {P : Nat} (hP : 0 < P) :
    ∀ {bs : List Block}, blocksOrdered bs → (∀ b ∈ bs, blockWF P b) →
      sortedLt (joinChunks P bs) := by
  intro bs
  induction bs with
  | nil =>
    intro h1 h2
    simp [joinChunks, sortedLt]
  | cons b tl ih =>
    intro hord hwf
    have hord2 : blocksOrdered tl := (List.chain'_cons'.mp hord).2
    have hwf2 : ∀ x ∈ tl, blockWF P x := fun x hx => hwf x (List.mem_cons_of_mem b hx)
    have hpair := blocksOrdered_pairwise hord
    rw [joinChunks_cons]
    show List.Chain' (· < ·) (b.chunks P ++ joinChunks P tl)
    rw [List.chain'_append]
    refine ⟨?_, ih hord2 hwf2, ?_⟩
    · rw [Block.chunks]
      exact chunkSeq_chain_lt hP _
    · intro x hx y hy
      have hxm : x ∈ b.chunks P := List.mem_of_mem_getLast? hx
      have hym : y ∈ joinChunks P tl := List.mem_of_mem_head? hy
      rcases mem_joinChunks.mp hym with ⟨b2, hb2, hyc⟩
      have hbb2 : b.base + b.size ≤ b2.base :=
        (List.pairwise_cons.mp hpair).1 b2 hb2
      have hxb := mem_chunks_bounds hP (hwf b (by simp)) hxm
      have hyb := mem_chunks_bounds hP (hwf2 b2 hb2) hyc
      have hend := endPtr_lt_size (hwf b (by simp))
      omega

/-- `release_memory` on a fully free ordered pool releases every region. -/
theorem releaseLoop_allfree (P : Nat) (hP : 0 < P) :
    ∀ (bs : List Block), blocksOrdered bs → (∀ b ∈ bs, blockWF P b) →
      releaseLoop P bs (joinChunks P bs) =
        ([], [], decide (bs ≠ [])) := by
  intro bs
  induction bs with
  | nil =>
    intro h1 h2
    simp [releaseLoop, joinChunks]
  | cons b tl ih =>
    intro hord hwf
    have hord2 : blocksOrdered tl := (List.chain'_cons'.mp hord).2
    have hwf2 : ∀ x ∈ tl, blockWF P x := fun x hx => hwf x (List.mem_cons_of_mem b hx)
    rcases hck : b.chunks P with - | ⟨c0, cs⟩
    · exact absurd hck (chunks_ne_nil hP (hwf b (by simp)))
    have hform : joinChunks P (b :: tl) = c0 :: (cs ++ joinChunks P tl) := by
      rw [joinChunks_cons, hck]
      rfl
    have hpre : b.chunks P <+: c0 :: (cs ++ joinChunks P tl) := by
      rw [hck, ← List.cons_append]
      exact List.prefix_append _ _
    have hdrop : (c0 :: (cs ++ joinChunks P tl)).drop (b.chunks P).length =
        joinChunks P tl := by
      rw [hck, ← List.cons_append]
      exact List.drop_left _ _
    rw [hform]
    have heq : releaseLoop P (b :: tl) (c0 :: (cs ++ joinChunks P tl)) =
        ((releaseLoop P tl (joinChunks P tl)).1,
         (releaseLoop P tl (joinChunks P tl)).2.1, true) := by
      rw [releaseLoop, if_pos hpre]
      simp only [hdrop]
    rw [heq, ih hord2 hwf2]
    simp

/-- Structural facts about one `release_memory` walk: the kept blocks are a
sub-list of the block list, the resulting free list is a sub-list of the free
list, and every kept free chunk still lies in a kept block. -/
theorem releaseLoop_main (P : Nat) (hP : 0 < P) :
    ∀ (bs : List Block) (free : List Nat),
      blocksOrdered bs → (∀ b ∈ bs, blockWF P b) → sortedLt free →
      (∀ c ∈ free, ∃ b ∈ bs, isChunkOf P b c) →
      List.Sublist (releaseLoop P bs free).1 bs ∧
      List.Sublist (releaseLoop P bs free).2.1 free ∧
      (∀ c ∈ (releaseLoop P bs free).2.1,
        ∃ b ∈ (releaseLoop P bs free).1, isChunkOf P b c) := by
  intro bs
  induction bs with
  | nil =>
    intro free h1 h2 h3 hmem
    refine ⟨List.Sublist.refl _, List.Sublist.refl _, ?_⟩
    intro c hc
    exact absurd (hmem c hc) (by simp)
  | cons b tl ih =>
    intro free
    cases free with
    | nil =>
      intro hord hwf hsort hmem
      rw [releaseLoop]
      refine ⟨List.Sublist.refl _, List.Sublist.refl _, ?_⟩
      intro c hc
      simp at hc
    | cons f fs =>
      intro hord hwf hsort hmem
      have hord2 : blocksOrdered tl := (List.chain'_cons'.mp hord).2
      have hwf2 : ∀ x ∈ tl, blockWF P x := fun x hx => hwf x (List.mem_cons_of_mem b hx)
      have hwfb : blockWF P b := hwf b (by simp)
      have hpair := blocksOrdered_pairwise hord
      by_cases hpre : b.chunks P <+: (f :: fs)
      · -- all chunks of `b` are free: the block is released
        rcases hpre2 : hpre with ⟨suf, hsuf⟩
        have hdropeq : (f :: fs).drop (b.chunks P).length = suf := by
          rw [← hsuf]
          exact List.drop_left _ _
        have heq : releaseLoop P (b :: tl) (f :: fs) =
            ((releaseLoop P tl suf).1, (releaseLoop P tl suf).2.1, true) := by
          rw [releaseLoop, if_pos hpre]
          simp only [hdropeq]
        have hsufmem : ∀ c ∈ suf, ∃ b2 ∈ tl, isChunkOf P b2 c := by
          intro c hc
          have hcfree : c ∈ f :: fs := by
            rw [← hsuf]
            exact List.mem_append_right _ hc
          rcases hmem c hcfree with ⟨b2, hb2, hc2⟩
          rcases List.mem_cons.mp hb2 with rfl | hb3
          · exfalso
            have hnodup : (f :: fs).Nodup := sortedLt_nodup hsort
            have hcchunk : c ∈ b2.chunks P := (isChunkOf_iff_mem_chunks hP hwfb c).mp hc2
            rw [← hsuf] at hnodup
            rcases List.nodup_append.mp hnodup with ⟨-, -, hdisj⟩
            exact hdisj hcchunk hc
          · exact ⟨b2, hb3, hc2⟩
        have hsortsuf : sortedLt suf := by
          refine hsort.sublist ?_
          rw [← hsuf]
          exact List.sublist_append_right _ _
        rcases ih suf hord2 hwf2 hsortsuf hsufmem with ⟨h1, h2, h3⟩
        rw [heq]
        refine ⟨?_, ?_, ?_⟩
        · exact h1.trans (List.sublist_cons_self b tl)
        · refine h2.trans ?_
          rw [← hsuf]
          exact List.sublist_append_right _ _
        · intro c hc
          rcases h3 c hc with ⟨b2, hb2, hc2⟩
          exact ⟨b2, hb2, hc2⟩
      · by_cases hisfrom : b.base ≤ f ∧ f < b.endPtr
        · -- some chunk of `b` is live: skip its free entries, keep the block
          have heq : releaseLoop P (b :: tl) (f :: fs) =
              (b :: (releaseLoop P tl
                  ((f :: fs).dropWhile (fun x => decide (x < b.endPtr)))).1,
               (f :: fs).takeWhile (fun x => decide (x < b.endPtr)) ++
                 (releaseLoop P tl
                   ((f :: fs).dropWhile (fun x => decide (x < b.endPtr)))).2.1,
               (releaseLoop P tl
                 ((f :: fs).dropWhile (fun x => decide (x < b.endPtr)))).2.2) := by
            rw [releaseLoop, if_neg hpre, if_pos hisfrom]
          have hdw : ∀ c ∈ (f :: fs).dropWhile (fun x => decide (x < b.endPtr)),
              ∃ b2 ∈ tl, isChunkOf P b2 c := by
            intro c hc
            have h1 : c ∈ f :: fs := (List.dropWhile_sublist _).mem hc
            rcases hmem c h1 with ⟨b2, hb2, hc2⟩
            rcases List.mem_cons.mp hb2 with rfl | hb3
            · exfalso
              have hclt : c < b2.endPtr := hc2.2.1
              have hsd : sortedLt ((f :: fs).dropWhile (fun x => decide (x < b2.endPtr))) :=
                hsort.sublist (List.dropWhile_sublist _)
              rcases hdl : (f :: fs).dropWhile (fun x => decide (x < b2.endPtr))
                with - | ⟨d0, ds⟩
              · rw [hdl] at hc
                simp at hc
              · have hh0 : (decide (d0 < b2.endPtr)) = false := by
                  have hhf := head_dropWhile_false (fun x => decide (x < b2.endPtr)) (f :: fs) d0
                  apply hhf
                  rw [hdl]
                  rfl
                simp only [decide_eq_false_iff_not, not_lt] at hh0
                rw [hdl] at hc hsd
                rcases List.mem_cons.mp hc with rfl | hcds
                · omega
                · have hpw := List.chain'_iff_pairwise.mp hsd
                  have hcd := (List.pairwise_cons.mp hpw).1 c hcds
                  omega
            · exact ⟨b2, hb3, hc2⟩
          have hsortdw : sortedLt ((f :: fs).dropWhile (fun x => decide (x < b.endPtr))) :=
            hsort.sublist (List.dropWhile_sublist _)
          rcases ih ((f :: fs).dropWhile (fun x => decide (x < b.endPtr))) hord2 hwf2
            hsortdw hdw with ⟨h1, h2, h3⟩
          rw [heq]
          refine ⟨List.Sublist.cons₂ b h1, ?_, ?_⟩
          · have hs := List.Sublist.append
              (List.Sublist.refl ((f :: fs).takeWhile (fun x => decide (x < b.endPtr)))) h2
            refine hs.trans ?_
            rw [List.takeWhile_append_dropWhile]
          · intro c hc
            rcases List.mem_append.mp hc with hck | hcr
            · refine ⟨b, by simp, ?_⟩
              have hcf : c ∈ f :: fs := (List.takeWhile_sublist _).mem hck
              have hlt := List.mem_takeWhile_imp hck
              simp only [decide_eq_true_eq] at hlt
              rcases hmem c hcf with ⟨b2, hb2, hc2⟩
              rcases List.mem_cons.mp hb2 with rfl | hb3
              · exact hc2
              · exfalso
                have hx : b.base + b.size ≤ b2.base := (List.pairwise_cons.mp hpair).1 b2 hb3
                have hy : b2.base ≤ c := hc2.1
                have hz := endPtr_lt_size hwfb
                omega
            · rcases h3 c hcr with ⟨b2, hb2, hc2⟩
              exact ⟨b2, List.mem_cons_of_mem b hb2, hc2⟩
        · -- no free entry lies in `b`: keep it and move on
          have heq : releaseLoop P (b :: tl) (f :: fs) =
              (b :: (releaseLoop P tl (f :: fs)).1,
               (releaseLoop P tl (f :: fs)).2.1,
               (releaseLoop P tl (f :: fs)).2.2) := by
            rw [releaseLoop, if_neg hpre, if_neg hisfrom]
          have hfsmem : ∀ c ∈ f :: fs, ∃ b2 ∈ tl, isChunkOf P b2 c := by
            intro c hcf
            rcases hmem c hcf with ⟨b2, hb2, hc2⟩
            rcases List.mem_cons.mp hb2 with rfl | hb3
            · exfalso
              apply hisfrom
              have hfc : f ≤ c := by
                rcases List.mem_cons.mp hcf with rfl | hcfs
                · exact le_refl _
                · have hpw := List.chain'_iff_pairwise.mp hsort
                  have hle := (List.pairwise_cons.mp hpw).1 c hcfs
                  omega
              have hfree_f : f ∈ f :: fs := by simp
              rcases hmem f hfree_f with ⟨bf, hbf, hcf2⟩
              rcases List.mem_cons.mp hbf with rfl | hbf2
              · exact ⟨hcf2.1, hcf2.2.1⟩
              · exfalso
                have h1 : b2.base + b2.size ≤ bf.base := (List.pairwise_cons.mp hpair).1 bf hbf2
                have h2 : bf.base ≤ f := hcf2.1
                have h3 : c < b2.endPtr := hc2.2.1
                have h4 := endPtr_lt_size (hwf b2 (by simp))
                omega
            · exact ⟨b2, hb3, hc2⟩
          rcases ih (f :: fs) hord2 hwf2 hsort hfsmem with ⟨h1, h2, h3⟩
          rw [heq]
          refine ⟨List.Sublist.cons₂ b h1, h2, ?_⟩
          intro c hc
          rcases h3 c hc with ⟨b2, hb2, hc2⟩
          exact ⟨b2, List.mem_cons_of_mem b hb2, hc2⟩

theorem inv_purgeMemory {s : PoolState} (hinv : Inv s) :
    Inv (purgeMemory s).2 := by
  obtain ⟨hR, hN, hS, hsort, hbord, hwfall, hmem⟩ := hinv
  rcases hbl : s.blocks with - | ⟨b, t⟩
  · rw [purgeMemory, hbl]
    exact ⟨hR, hN, hS, hsort, hbord, hwfall, hmem⟩
  · rw [purgeMemory, hbl]
    refine ⟨hR, hS, hS, by simp [sortedLt], by simp [blocksOrdered], by simp, by simp⟩

/-- `release_memory` preserves the pool invariant: the kept blocks and the
kept free entries are sub-lists of the originals, and every kept free chunk
lies in a kept block. -/
theorem inv_releaseMemory {s : PoolState} (hinv : Inv s) :
    Inv (releaseMemory s).2 := by
  obtain ⟨hR, hN, hS, hsort, hbord, hwfall, hmem⟩ := hinv
  have hP : 0 < allocSize s.requestedSize := allocSize_pos hR
  rcases releaseLoop_main (allocSize s.requestedSize) hP s.blocks s.freeList
    hbord hwfall hsort hmem with ⟨h1, h2, h3⟩
  refine ⟨hR, hS, hS, hsort.sublist h2, ?_, ?_, h3⟩
  · exact List.Pairwise.chain' ((blocksOrdered_pairwise hbord).sublist h1)
  · intro b hb
    exact hwfall b (h1.mem hb)

/-- A freshly constructed pool satisfies the invariant. -/
theorem inv_mkPool {R ns ms : Nat} (hR : 0 < R) (hns : 0 < ns) :
    Inv (mkPool R ns ms) := by
  refine ⟨hR, hns, hns, ?_, ?_, ?_, ?_⟩ <;> simp [mkPool, sortedLt, blocksOrdered]

/-- Each ordered-interface call preserves the pool invariant. -/
theorem inv_step {s s' : PoolState} (hinv : Inv s) (hstep : OrderedStep s s') :
    Inv s' := by
  cases hstep with
  | omalloc alloc hfresh => exact inv_poolOrderedMalloc hinv hfresh
  | omallocN n alloc hfresh => exact inv_orderedMallocN hinv hfresh
  | ofree c hc hcb => exact inv_poolOrderedFree hinv hc hcb
  | ofreeN p n hside => exact inv_poolOrderedFreeN hinv hside
  | release => exact inv_releaseMemory hinv
  | purge => exact inv_purgeMemory hinv

/-- The invariant holds in every state reachable by ordered calls. -/
theorem inv_reachable {s s' : PoolState} (hinv : Inv s)
    (h : Relation.ReflTransGen OrderedStep s s') : Inv s' := by
  induction h with
  | refl => exact hinv
  | tail h1 h2 ih => exact inv_step ih h2

/-- C4: on a pool used only through the ordered interface (ordered_malloc,
ordered_malloc(n), ordered_free, ordered_free(p, n), release_memory,
purge_memory), every reachable state has a free list in strictly ascending
address order and a block list in ascending base order. -/
theorem claim_C4 (R ns ms : Nat) (hR : 0 < R) (hns : 0 < ns) (s : PoolState)
    (hreach : Relation.ReflTransGen OrderedStep (mkPool R ns ms) s) :
    sortedLt s.freeList ∧ blocksOrdered s.blocks := by
  have h := inv_reachable (inv_mkPool hR hns) hreach
  exact ⟨h.2.2.2.1, h.2.2.2.2.1⟩

theorem claim_C4_witness :
    sortedLt (poolOrderedMalloc (mkPool 8 32 0) (some 1000)).2.freeList ∧
    blocksOrdered (poolOrderedMalloc (mkPool 8 32 0) (some 1000)).2.blocks :=
  claim_C4 8 32 0 (by decide) (by decide) _
    (Relation.ReflTransGen.single
      (OrderedStep.omalloc (mkPool 8 32 0) (some 1000) (by decide)))

/-- When `ordered_malloc(n)` succeeds, the returned run lies inside one
region of the resulting block list and none of its chunks is on the
resulting free list. -/
theorem orderedMallocN_success_run {s : PoolState} {m q : Nat} {alloc : Option Nat}
    {s' : PoolState} (hinv : Inv s)
    (hfresh : FreshAlloc s alloc
      (podSize (max s.nextSize (numChunksOf m s.requestedSize (allocSize s.requestedSize)))
        (allocSize s.requestedSize)))
    (hn1 : 1 ≤ numChunksOf m s.requestedSize (allocSize s.requestedSize))
    (hcall : orderedMallocN s m alloc = (some q, s')) :
    ∃ b ∈ s'.blocks, ∀ j, j < numChunksOf m s.requestedSize (allocSize s.requestedSize) →
      isChunkOf (allocSize s.requestedSize) b (q + j * allocSize s.requestedSize) ∧
      q + j * allocSize s.requestedSize ∉ s'.freeList := by
  set P := allocSize s.requestedSize with hPdef
  set num := numChunksOf m s.requestedSize P with hnumdef
  set ns1 := max s.nextSize num with hns1def
  have hP : 0 < P := allocSize_pos hinv.1
  rcases hm : mallocN num P s.freeList with ⟨r, free0⟩
  rcases r with - | q0
  · -- the search failed: success means a grow happened
    have hm1 : (mallocN num P s.freeList).1 = none := by rw [hm]
    rcases alloc with - | ptr
    · rw [orderedMallocN_oom_eq hPdef hnumdef hns1def hm1] at hcall
      exact absurd hcall (by simp)
    · rw [orderedMallocN_grow_eq hPdef hnumdef hns1def hm1] at hcall
      simp only [Prod.mk.injEq, Option.some.injEq] at hcall
      obtain ⟨rfl, rfl⟩ := hcall
      obtain ⟨hq0, hdisj⟩ := hfresh
      refine ⟨⟨ptr, ns1 * P + ctLcmVal + sizeofSizeT⟩,
        mem_insertBlockOrdered.mpr (Or.inl rfl), ?_⟩
      intro j hj
      have hjns : (j + 1) * P ≤ ns1 * P := Nat.mul_le_mul_right P (by omega)
      have hjnum : (j + 1) * P ≤ num * P := Nat.mul_le_mul_right P (by omega)
      have hsucc : (j + 1) * P = j * P + P := Nat.succ_mul j P
      constructor
      · refine ⟨Nat.le_add_right ptr (j * P), ?_, ?_⟩
        · show ptr + j * P < ptr + Block.elementSize ⟨ptr, ns1 * P + ctLcmVal + sizeofSizeT⟩
          rw [node_elementSize]
          omega
        · show (ptr + j * P - ptr) % P = 0
          rw [Nat.add_sub_cancel_left]
          exact Nat.mul_mod_left j P
      · intro hmem
        have hnotfree : ptr + j * P ∉ s.freeList := by
          intro hmemf
          have hfb := fresh_chunk_bounds hinv hdisj hmemf
          rw [podSize] at hfb
          omega
        by_cases hgt : ns1 > num
        · rw [if_pos hgt] at hmem
          have hmem2 := (addOrderedBlock_perm (ptr + num * P) (ns1 * P - num * P) P
            s.freeList).mem_iff.mp hmem
          rcases List.mem_append.mp hmem2 with hck | hmf
          · rcases mem_chunkSeq.mp hck with ⟨k, hk, hkeq⟩
            omega
          · exact hnotfree hmf
        · rw [if_neg hgt] at hmem
          exact hnotfree hmem
  · -- the search succeeded on the current free list
    rw [orderedMallocN_hit_eq hPdef hnumdef hm] at hcall
    simp only [Prod.mk.injEq, Option.some.injEq] at hcall
    obtain ⟨rfl, rfl⟩ := hcall
    obtain ⟨pre, rem, hsplit, hfree0, -⟩ := mallocN_some_spec hn1 hm
    have hrunfree : ∀ j, j < num → q0 + j * P ∈ s.freeList := by
      intro j hj
      rw [hsplit]
      refine List.mem_append.mpr (Or.inl (List.mem_append.mpr (Or.inr ?_)))
      exact mem_chunkSeq.mpr ⟨j, hj, rfl⟩
    obtain ⟨b, hb, hchunks⟩ := run_same_block hinv (by omega) hrunfree
    refine ⟨b, hb, ?_⟩
    intro j hj
    refine ⟨hchunks j hj, ?_⟩
    have hnd : s.freeList.Nodup := sortedLt_nodup hinv.2.2.2.1
    rw [hsplit] at hnd
    rcases List.nodup_append.mp hnd with ⟨hnd12, hndr, hdisjr⟩
    rcases List.nodup_append.mp hnd12 with ⟨hndp, hndc, hdisjpc⟩
    have hcs : q0 + j * P ∈ chunkSeq q0 num P := mem_chunkSeq.mpr ⟨j, hj, rfl⟩
    intro hin
    show False
    have hin2 : q0 + j * P ∈ pre ++ rem := by
      rw [← hfree0]
      exact hin
    rcases List.mem_append.mp hin2 with hp | hr
    · exact hdisjpc hp hcs
    · exact hdisjr (List.mem_append.mpr (Or.inr hcs)) hr

/-- C5: for `n ≥ 1`, `malloc_n(n, P)` on a free list returns null exactly
when the list has no contiguous run of `n` chunks of stride `P`; on success
it unlinks the first such run as a unit (the free list splits as
`pre ++ run ++ rem` with the run removed and no run starting inside `pre`)
and returns the run's first chunk.  Consequently a successful
`ordered_malloc(n)` returns a pointer `q` whose `num_chunks` chunk positions
`q, q+P, …` all lie in one region of the resulting block list and none of
them is on the resulting free list. -/
theorem claim_C5 :
    (∀ n P : Nat, 1 ≤ n → ∀ l : List Nat,
      ((mallocN n P l).1 = none ↔ ¬ HasRun P n l)) ∧
    (∀ n P : Nat, 1 ≤ n → ∀ (l l' : List Nat) (q : Nat),
      mallocN n P l = (some q, l') →
      ∃ pre rem, l = pre ++ chunkSeq q n P ++ rem ∧ l' = pre ++ rem ∧
        ∀ i, i < pre.length → ¬ HasRunAt P n l i) ∧
    (∀ (s : PoolState) (m q : Nat) (alloc : Option Nat) (s' : PoolState),
      Inv s →
      FreshAlloc s alloc
        (podSize (max s.nextSize (numChunksOf m s.requestedSize (allocSize s.requestedSize)))
          (allocSize s.requestedSize)) →
      1 ≤ numChunksOf m s.requestedSize (allocSize s.requestedSize) →
      orderedMallocN s m alloc = (some q, s') →
      ∃ b ∈ s'.blocks, ∀ j, j < numChunksOf m s.requestedSize (allocSize s.requestedSize) →
        isChunkOf (allocSize s.requestedSize) b (q + j * allocSize s.requestedSize) ∧
        q + j * allocSize s.requestedSize ∉ s'.freeList) :=
  ⟨fun n P hn l => mallocN_none_iff hn l,
   fun n P hn l l' q h => mallocN_some_spec hn h,
   fun s m q alloc s' hinv hfresh hn1 hcall =>
     orderedMallocN_success_run hinv hfresh hn1 hcall⟩

/-- A strictly ascending list is a sub-list of any strictly ascending list
containing its elements. -/
theorem sorted_sublist_of_subset :
    ∀ (m : List Nat), List.Chain' (· < ·) m → ∀ (l : List Nat), List.Chain' (· < ·) l →
      (∀ x ∈ l, x ∈ m) → List.Sublist l m := by
  intro m
  induction m with
  | nil =>
    intro hm l hl hsub
    cases l with
    | nil => exact List.Sublist.refl []
    | cons a l' => exact absurd (hsub a (by simp)) (by simp)
  | cons b m' ih =>
    intro hm l hl hsub
    cases l with
    | nil => exact List.nil_sublist _
    | cons a l' =>
      have hpm := List.chain'_iff_pairwise.mp hm
      have hpl := List.chain'_iff_pairwise.mp hl
      have hbm := (List.pairwise_cons.mp hpm).1
      have hal := (List.pairwise_cons.mp hpl).1
      by_cases hab : a = b
      · subst hab
        refine List.Sublist.cons₂ a (ih hm.tail l' hl.tail ?_)
        intro x hx
        have hxm := hsub x (List.mem_cons_of_mem a hx)
        rcases List.mem_cons.mp hxm with hxa | hxm'
        · exact absurd (hal x hx) (by omega)
        · exact hxm'
      · refine List.Sublist.cons b (ih hm.tail (a :: l') hl ?_)
        intro x hx
        have hxm := hsub x hx
        rcases List.mem_cons.mp hxm with hxb | hxm'
        · exfalso
          have ham : a ∈ m' := by
            rcases List.mem_cons.mp (hsub a (by simp)) with h4 | h4
            · exact absurd h4 hab
            · exact h4
          have hba := hbm a ham
          rcases List.mem_cons.mp hx with hxa | hx2
          · exact hab (hxa.symm.trans hxb)
          · have hax := hal x hx2
            omega
        · exact hxm'

/-- The destructor sweep of one block with an exhausted free cursor destroys
every chunk. -/
theorem sweepBlock_nil : ∀ l : List Nat, sweepBlock l [] = (l, []) := by
  intro l
  induction l with
  | nil => rfl
  | cons i is ih => rw [sweepBlock, ih]

/-- The tandem scan of `~object_pool` over one block: the freed entries of
the block are consumed from the cursor and exactly the remaining chunk
positions are destroyed, in ascending order. -/
theorem sweepBlock_spec :
    ∀ (chunks f1 rest : List Nat), List.Sublist f1 chunks → chunks.Nodup →
      (∀ x ∈ rest, x ∉ chunks) →
      sweepBlock chunks (f1 ++ rest) =
        (chunks.filter (fun c => decide (c ∉ f1)), rest) := by
  intro chunks
  induction chunks with
  | nil =>
    intro f1 rest hsub hnd hdisj
    rw [List.sublist_nil.mp hsub]
    rfl
  | cons i is ih =>
    intro f1 rest hsub hnd hdisj
    have hnotis : i ∉ is := (List.nodup_cons.mp hnd).1
    have hndis : is.Nodup := (List.nodup_cons.mp hnd).2
    cases f1 with
    | nil =>
      cases rest with
      | nil =>
        rw [List.nil_append, sweepBlock_nil]
        simp
      | cons f fs =>
        have hfi : ¬ i = f := by
          intro h
          exact hdisj f (by simp) (by simp [h])
        have hdisj2 : ∀ x ∈ f :: fs, x ∉ is := fun x hx hmem =>
          hdisj x hx (List.mem_cons_of_mem i hmem)
        have hrec := ih [] (f :: fs) (List.nil_sublist _) hndis hdisj2
        rw [List.nil_append] at hrec
        rw [List.nil_append, sweepBlock, if_neg hfi, hrec]
        simp
    | cons g gs =>
      by_cases hig : i = g
      · subst hig
        have hgs : List.Sublist gs is := by
          cases hsub with
          | cons _ h => exact absurd (h.subset (by simp)) hnotis
          | cons₂ _ h => exact h
        have hdisj2 : ∀ x ∈ rest, x ∉ is := fun x hx hmem =>
          hdisj x hx (List.mem_cons_of_mem i hmem)
        have hrec := ih gs rest hgs hndis hdisj2
        rw [List.cons_append, sweepBlock, if_pos rfl, hrec]
        have hfi : ((fun c => decide (c ∉ i :: gs)) i = true) = False := by simp
        simp only [List.filter_cons, hfi, if_false]
        refine congrArg (fun l => (l, rest)) (List.filter_congr ?_)
        intro c hc
        have hci : ¬ c = i := fun h => hnotis (h ▸ hc)
        simp [hci]
      · have hgs : List.Sublist (g :: gs) is := by
          cases hsub with
          | cons _ h => exact h
          | cons₂ _ h => exact absurd rfl hig
        have hdisj2 : ∀ x ∈ rest, x ∉ is := fun x hx hmem =>
          hdisj x hx (List.mem_cons_of_mem i hmem)
        have hrec := ih (g :: gs) rest hgs hndis hdisj2
        rw [List.cons_append] at hrec
        have hgi : (fun c => decide (c ∉ g :: gs)) i = true := by
          have h1 : i ∉ gs := fun h => hnotis (hgs.subset (List.mem_cons_of_mem g h))
          simp [hig, h1]
        rw [List.cons_append, sweepBlock, if_neg hig, hrec]
        simp only [List.filter_cons, hgi, if_true]

/-- Entries of the free list at or beyond the cut point of a sorted
`dropWhile (· < e)` split are at least `e`. -/
theorem dropWhile_lt_ge {e : Nat} {l : List Nat} (hsort : sortedLt l) :
    ∀ x ∈ l.dropWhile (fun c => decide (c < e)), e ≤ x := by
  intro x hx
  rcases hdl : l.dropWhile (fun c => decide (c < e)) with - | ⟨d0, ds⟩
  · rw [hdl] at hx
    simp at hx
  · have hh0 : (decide (d0 < e)) = false := by
      apply head_dropWhile_false (fun c => decide (c < e)) l d0
      rw [hdl]
      rfl
    simp only [decide_eq_false_iff_not, not_lt] at hh0
    have hsd : sortedLt (l.dropWhile (fun c => decide (c < e))) :=
      hsort.sublist (List.dropWhile_sublist _)
    rw [hdl] at hx hsd
    rcases List.mem_cons.mp hx with rfl | hxds
    · exact hh0
    · have hpw := List.chain'_iff_pairwise.mp hsd
      have := (List.pairwise_cons.mp hpw).1 x hxds
      omega

/-- The full `~object_pool` tandem walk: under the pool invariant the
destroyed addresses are exactly the chunk positions of the block list that
are not on the free list, in traversal order. -/
theorem destructorSweep_eq (P : Nat) (hP : 0 < P) :
    ∀ (bs : List Block) (free : List Nat),
      blocksOrdered bs → (∀ b ∈ bs, blockWF P b) → sortedLt free →
      (∀ c ∈ free, ∃ b ∈ bs, isChunkOf P b c) →
      destructorSweep P bs free =
        (joinChunks P bs).filter (fun c => decide (c ∉ free)) := by
  intro bs
  induction bs with
  | nil =>
    intro free h1 h2 h3 hmem
    rfl
  | cons b tl ih =>
    intro free hord hwf hsort hmem
    have hord2 : blocksOrdered tl := (List.chain'_cons'.mp hord).2
    have hwf2 : ∀ x ∈ tl, blockWF P x := fun x hx => hwf x (List.mem_cons_of_mem b hx)
    have hwfb : blockWF P b := hwf b (by simp)
    have hpair := blocksOrdered_pairwise hord
    have hend := endPtr_lt_size hwfb
    have hchain : List.Chain' (· < ·) (b.chunks P) := by
      rw [Block.chunks]
      exact chunkSeq_chain_lt hP _
    have hndchunks : (b.chunks P).Nodup := (List.chain'_iff_pairwise.mp hchain).nodup
    have hfr : free.takeWhile (fun c => decide (c < b.endPtr)) ++
        free.dropWhile (fun c => decide (c < b.endPtr)) = free :=
      List.takeWhile_append_dropWhile (fun c => decide (c < b.endPtr)) free
    have hrest_ge := dropWhile_lt_ge (e := b.endPtr) hsort
    have hf1_in_b : ∀ x ∈ free.takeWhile (fun c => decide (c < b.endPtr)),
        x ∈ b.chunks P := by
      intro x hx
      have hxf : x ∈ free := (List.takeWhile_sublist _).subset hx
      have hxlt := List.mem_takeWhile_imp hx
      simp only [decide_eq_true_eq] at hxlt
      rcases hmem x hxf with ⟨b2, hb2, hc2⟩
      rcases List.mem_cons.mp hb2 with rfl | hb3
      · exact (isChunkOf_iff_mem_chunks hP hwfb x).mp hc2
      · exfalso
        have h1 : b.base + b.size ≤ b2.base := (List.pairwise_cons.mp hpair).1 b2 hb3
        have h2 : b2.base ≤ x := hc2.1
        omega
    have hf1sub : List.Sublist (free.takeWhile (fun c => decide (c < b.endPtr)))
        (b.chunks P) :=
      sorted_sublist_of_subset (b.chunks P) hchain _
        (hsort.sublist (List.takeWhile_sublist _)) hf1_in_b
    have hrest_disj : ∀ x ∈ free.dropWhile (fun c => decide (c < b.endPtr)),
        x ∉ b.chunks P := by
      intro x hx hxc
      have h1 := hrest_ge x hx
      have h2 := (mem_chunks_bounds hP hwfb hxc).2
      omega
    have hsw := sweepBlock_spec (b.chunks P)
      (free.takeWhile (fun c => decide (c < b.endPtr)))
      (free.dropWhile (fun c => decide (c < b.endPtr))) hf1sub hndchunks hrest_disj
    rw [hfr] at hsw
    have hmem2 : ∀ c ∈ free.dropWhile (fun c => decide (c < b.endPtr)),
        ∃ b2 ∈ tl, isChunkOf P b2 c := by
      intro c hc
      have hcf : c ∈ free := (List.dropWhile_sublist _).subset hc
      rcases hmem c hcf with ⟨b2, hb2, hc2⟩
      rcases List.mem_cons.mp hb2 with rfl | hb3
      · exfalso
        have h1 := hrest_ge c hc
        have h2 : c < b2.endPtr := hc2.2.1
        omega
      · exact ⟨b2, hb3, hc2⟩
    have hrec := ih (free.dropWhile (fun c => decide (c < b.endPtr))) hord2 hwf2
      (hsort.sublist (List.dropWhile_sublist _)) hmem2
    show (sweepBlock (b.chunks P) free).1 ++
        destructorSweep P tl (sweepBlock (b.chunks P) free).2 =
      (joinChunks P (b :: tl)).filter (fun c => decide (c ∉ free))
    rw [hsw, hrec, joinChunks_cons, List.filter_append]
    have e1 : (b.chunks P).filter
          (fun c => decide (c ∉ free.takeWhile (fun x => decide (x < b.endPtr)))) =
        (b.chunks P).filter (fun c => decide (c ∉ free)) := by
      refine List.filter_congr ?_
      intro c hc
      rw [decide_eq_decide]
      have hlt := (mem_chunks_bounds hP hwfb hc).2
      constructor
      · intro h1 h2
        apply h1
        have h3 : free = free.takeWhile (fun x => decide (x < b.endPtr)) ++
            free.dropWhile (fun x => decide (x < b.endPtr)) := hfr.symm
        rw [h3] at h2
        rcases List.mem_append.mp h2 with h4 | h4
        · exact h4
        · exact absurd (hrest_ge c h4) (by omega)
      · intro h1 h2
        exact h1 ((List.takeWhile_sublist _).subset h2)
    have e2 : (joinChunks P tl).filter
          (fun c => decide (c ∉ free.dropWhile (fun x => decide (x < b.endPtr)))) =
        (joinChunks P tl).filter (fun c => decide (c ∉ free)) := by
      refine List.filter_congr ?_
      intro c hc
      rw [decide_eq_decide]
      rcases mem_joinChunks.mp hc with ⟨b2, hb2, hcb2⟩
      have hb2wf := hwf2 b2 hb2
      have hbnd := mem_chunks_bounds hP hb2wf hcb2
      have hdisj : b.base + b.size ≤ b2.base := (List.pairwise_cons.mp hpair).1 b2 hb2
      constructor
      · intro h1 h2
        apply h1
        have h3 : free = free.takeWhile (fun x => decide (x < b.endPtr)) ++
            free.dropWhile (fun x => decide (x < b.endPtr)) := hfr.symm
        rw [h3] at h2
        rcases List.mem_append.mp h2 with h4 | h4
        · have h5 := List.mem_takeWhile_imp h4
          simp only [decide_eq_true_eq] at h5
          have h6 : b.base ≤ c ∧ c < b.endPtr → False := by omega
          exact absurd ⟨by omega, h5⟩ h6
        · exact h4
      · intro h1 h2
        exact h1 ((List.dropWhile_sublist _).subset h2)
    rw [e1, e2]

/-- The destructor calls of `~object_pool` in closed form. -/
theorem objectPoolDtorCalls_eq {s : PoolState} (hinv : Inv s) :
    objectPoolDtorCalls s =
      (joinChunks (allocSize s.requestedSize) s.blocks).filter
        (fun c => decide (c ∉ s.freeList)) := by
  obtain ⟨hR, hN, hS, hsort, hbord, hwfall, hmem⟩ := hinv
  have hP := allocSize_pos hR
  have hds := destructorSweep_eq (allocSize s.requestedSize) hP s.blocks s.freeList
    hbord hwfall hsort hmem
  rcases hbl : s.blocks with - | ⟨b, t⟩
  · simp only [objectPoolDtorCalls, hbl, joinChunks_nil, List.filter_nil]
  · simp only [objectPoolDtorCalls, hbl]
    rw [hbl] at hds
    exact hds

/-- C8: when an `object_pool` is destroyed, a chunk position of a region on
the block list gets its destructor invoked exactly when it is live (not on
the ordered free list) — the sweep equals the chunk enumeration filtered by
liveness — and after 100 `construct()` calls with no `destroy`, destruction
invokes the destructor exactly 100 times. -/
theorem claim_C8 :
    (∀ s : PoolState, Inv s →
      objectPoolDtorCalls s =
        (joinChunks (allocSize s.requestedSize) s.blocks).filter
          (fun c => decide (c ∉ s.freeList))) ∧
    (∀ (s : PoolState) (c : Nat), Inv s →
      (c ∈ objectPoolDtorCalls s ↔
        (∃ b ∈ s.blocks, c ∈ b.chunks (allocSize s.requestedSize)) ∧
          c ∉ s.freeList)) ∧
    (objectPoolDtorCalls s100).length = 100 := by
  refine ⟨fun s hinv => objectPoolDtorCalls_eq hinv, fun s c hinv => ?_, ?_⟩
  · rw [objectPoolDtorCalls_eq hinv, List.mem_filter, mem_joinChunks]
    simp
  · rfl

/-! ### Matched ordered traces and `release_memory` -/

theorem joinChunks_insert_perm (P : Nat) (node : Block) (bs : List Block) :
    List.Perm (joinChunks P (insertBlockOrdered node bs))
      (node.chunks P ++ joinChunks P bs) := by
  have h := ((insertBlockOrdered_perm node bs).map (fun b => b.chunks P)).flatten
  exact h

/-- A fresh trace: empty pool, nothing held. -/
theorem traceInv_mkPool {R ns ms : Nat} (hR : 0 < R) (hns : 0 < ns) :
    TraceInv (mkPool R ns ms) [] := by
  refine ⟨inv_mkPool hR hns, List.nodup_nil, ?_, ?_, ?_⟩ <;> simp [mkPool, joinChunks]

/-- A failing `ordered_malloc` leaves the state untouched. -/
theorem poolOrderedMalloc_none {s s' : PoolState}
    (h : poolOrderedMalloc s none = (none, s')) : s' = s := by
  rcases hfl : s.freeList with - | ⟨a, t⟩
  · rw [poolOrderedMalloc, hfl] at h
    simp only [orderedMallocNeedResize] at h
    exact ((Prod.mk.injEq _ _ _ _ ▸ h).2).symm
  · rw [poolOrderedMalloc, hfl] at h
    simp at h

/-- A successful `ordered_malloc` preserves the trace invariant, the
returned chunk joining the held list. -/
theorem traceInv_malloc {s s' : PoolState} {live : List Nat} {alloc : Option Nat} {q : Nat}
    (htr : TraceInv s live)
    (hfresh : FreshAlloc s alloc (podSize s.nextSize (allocSize s.requestedSize)))
    (h : poolOrderedMalloc s alloc = (some q, s')) :
    TraceInv s' (q :: live) := by
  obtain ⟨hinv, hnd, hblk, hnf, hperm⟩ := htr
  have hP : 0 < allocSize s.requestedSize := allocSize_pos hinv.1
  have hinv' : Inv (poolOrderedMalloc s alloc).2 := inv_poolOrderedMalloc hinv hfresh
  rw [h] at hinv'
  rcases hfl : s.freeList with - | ⟨a, t⟩
  · -- grow path
    rw [poolOrderedMalloc, hfl] at h
    rcases alloc with - | ptr
    · simp only [orderedMallocNeedResize] at h
      simp at h
    · rw [orderedMallocNeedResize_eq hfl hinv.2.1 hP] at h
      simp only [Prod.mk.injEq, Option.some.injEq] at h
      obtain ⟨rfl, rfl⟩ := h
      obtain ⟨hq0, hdisj⟩ := hfresh
      have hns1 : 1 * allocSize s.requestedSize ≤
          s.nextSize * allocSize s.requestedSize :=
        Nat.mul_le_mul_right _ hinv.2.1
      have hqchunk : isChunkOf (allocSize s.requestedSize)
          ⟨ptr, podSize s.nextSize (allocSize s.requestedSize)⟩ ptr := by
        refine ⟨le_refl ptr, ?_, by simp⟩
        show ptr < ptr + Block.elementSize _
        rw [podSize, node_elementSize]
        omega
      have hfreshout : ∀ c, (∃ b ∈ s.blocks, isChunkOf (allocSize s.requestedSize) b c) →
          c < ptr ∨ ptr + podSize s.nextSize (allocSize s.requestedSize) ≤ c := by
        intro c hex
        obtain ⟨b, hb, hcb⟩ := hex
        have hwfb := hinv.2.2.2.2.2.1 b hb
        have hend := endPtr_lt_size hwfb
        rcases hdisj b hb with hd | hd
        · left
          have := hcb.2.1
          omega
        · right
          have := hcb.1
          omega
      have hlive : List.Perm live (joinChunks (allocSize s.requestedSize) s.blocks) := by
        have h2 := hperm
        rw [hfl, List.nil_append] at h2
        exact h2
      refine ⟨hinv', ?_, ?_, ?_, ?_⟩
      · refine List.nodup_cons.mpr ⟨?_, hnd⟩
        intro hql
        rcases hfreshout ptr (hblk ptr hql) with hlt | hge
        · omega
        · rw [podSize] at hge
          omega
      · intro c hc
        rcases List.mem_cons.mp hc with rfl | hc'
        · exact ⟨⟨c, podSize s.nextSize (allocSize s.requestedSize)⟩,
            mem_insertBlockOrdered.mpr (Or.inl rfl), hqchunk⟩
        · obtain ⟨b, hb, hcb⟩ := hblk c hc'
          exact ⟨b, mem_insertBlockOrdered.mpr (Or.inr hb), hcb⟩
      · intro c hc hcf
        show False
        rcases mem_chunkSeq.mp hcf with ⟨j, hj, rfl⟩
        rcases List.mem_cons.mp hc with heq | hc'
        · omega
        · rcases hfreshout _ (hblk _ hc') with hlt | hge
          · omega
          · rw [podSize] at hge
            have hj2 : (j + 1 + 1) * allocSize s.requestedSize ≤
                s.nextSize * allocSize s.requestedSize :=
              Nat.mul_le_mul_right _ (by omega)
            have hj3 : (j + 1 + 1) * allocSize s.requestedSize =
                (j + 1) * allocSize s.requestedSize + allocSize s.requestedSize :=
              Nat.succ_mul _ _
            have hj4 : (j + 1) * allocSize s.requestedSize =
                j * allocSize s.requestedSize + allocSize s.requestedSize :=
              Nat.succ_mul _ _
            omega
      · show List.Perm
          (chunkSeq (ptr + allocSize s.requestedSize) (s.nextSize - 1)
              (allocSize s.requestedSize) ++ (ptr :: live))
          (joinChunks (allocSize s.requestedSize)
            (insertBlockOrdered ⟨ptr, podSize s.nextSize (allocSize s.requestedSize)⟩
              s.blocks))
        have hq3 : ptr :: chunkSeq (ptr + allocSize s.requestedSize) (s.nextSize - 1)
            (allocSize s.requestedSize) =
            Block.chunks ⟨ptr, podSize s.nextSize (allocSize s.requestedSize)⟩
              (allocSize s.requestedSize) := by
          rw [podSize, node_chunks hP]
          have hN : 0 < s.nextSize := hinv.2.1
          have hns : s.nextSize = (s.nextSize - 1) + 1 := by omega
          conv_rhs => rw [hns, chunkSeq_succ]
        refine List.Perm.trans List.perm_middle ?_
        rw [← List.cons_append, hq3]
        refine List.Perm.trans (List.Perm.append_left _ hlive) ?_
        exact (joinChunks_insert_perm _ _ _).symm
  · -- pop from the free list
    rw [poolOrderedMalloc, hfl] at h
    simp only [Prod.mk.injEq, Option.some.injEq] at h
    obtain ⟨rfl, rfl⟩ := h
    have handup : a ∉ t := by
      have hnodup := sortedLt_nodup hinv.2.2.2.1
      rw [hfl] at hnodup
      exact (List.nodup_cons.mp hnodup).1
    refine ⟨hinv', ?_, ?_, ?_, ?_⟩
    · refine List.nodup_cons.mpr ⟨?_, hnd⟩
      intro hal
      exact hnf a hal (by rw [hfl]; simp)
    · intro c hc
      rcases List.mem_cons.mp hc with rfl | hc'
      · exact hinv.2.2.2.2.2.2 c (by rw [hfl]; simp)
      · exact hblk c hc'
    · intro c hc
      rcases List.mem_cons.mp hc with rfl | hc'
      · exact handup
      · intro hct
        exact hnf c hc' (by rw [hfl]; exact List.mem_cons_of_mem a hct)
    · show List.Perm (t ++ (a :: live)) _
      refine List.Perm.trans List.perm_middle ?_
      rw [← List.cons_append, ← hfl]
      exact hperm

/-- `ordered_free` of a held chunk preserves the trace invariant. -/
theorem traceInv_free {s : PoolState} {live : List Nat} {c : Nat}
    (htr : TraceInv s live) (hc : c ∈ live) :
    TraceInv (poolOrderedFree s c) (live.erase c) := by
  obtain ⟨hinv, hnd, hblk, hnf, hperm⟩ := htr
  have hinv' : Inv (poolOrderedFree s c) :=
    inv_poolOrderedFree hinv (hnf c hc) (hblk c hc)
  refine ⟨hinv', hnd.erase c, ?_, ?_, ?_⟩
  · intro x hx
    exact hblk x ((List.erase_sublist c live).subset hx)
  · intro x hx
    have hx2 := (List.Nodup.mem_erase_iff hnd).mp hx
    intro hxf
    have hxf2 := (storageOrderedFree_perm c s.freeList).subset hxf
    rcases List.mem_cons.mp hxf2 with rfl | hxf3
    · exact hx2.1 rfl
    · exact hnf x hx2.2 hxf3
  · show List.Perm (storageOrderedFree c s.freeList ++ live.erase c) _
    refine List.Perm.trans
      (List.Perm.append_right _ (storageOrderedFree_perm c s.freeList)) ?_
    show List.Perm ((c :: s.freeList) ++ live.erase c) _
    rw [List.cons_append]
    refine List.Perm.trans ?_ hperm
    refine List.Perm.trans List.perm_middle.symm ?_
    exact List.Perm.append_left s.freeList (List.perm_cons_erase hc).symm

/-- Running a valid trace preserves the trace invariant. -/
theorem runOps_traceInv :
    ∀ (ops : List PoolOp) (s : PoolState) (live : List Nat),
      TraceInv s live → validOps s live ops = true →
      TraceInv (runOps s live ops).1 (runOps s live ops).2 := by
  intro ops
  induction ops with
  | nil =>
    intro s live htr hv
    exact htr
  | cons op rest ih =>
    intro s live htr hv
    cases op with
    | pmalloc alloc =>
      rw [validOps, Bool.and_eq_true, decide_eq_true_iff] at hv
      obtain ⟨hfresh, hv2⟩ := hv
      rcases hpm : poolOrderedMalloc s alloc with ⟨r, s2⟩
      rcases r with - | q
      · have hnone : alloc = none := by
          rcases halloc : alloc with - | ptr
          · rfl
          · exfalso
            rw [halloc] at hpm
            rcases hfl : s.freeList with - | ⟨a, t⟩
            · rw [poolOrderedMalloc, hfl,
                orderedMallocNeedResize_eq hfl htr.1.2.1
                  (allocSize_pos htr.1.1)] at hpm
              simp at hpm
            · rw [poolOrderedMalloc, hfl] at hpm
              simp at hpm
        subst hnone
        have hs2 : s2 = s := poolOrderedMalloc_none hpm
        subst hs2
        rw [hpm] at hv2
        have hrun : runOps s2 live (PoolOp.pmalloc none :: rest) = runOps s2 live rest := by
          rw [runOps, hpm]
        rw [hrun]
        exact ih s2 live htr hv2
      · have htr2 : TraceInv s2 (q :: live) := traceInv_malloc htr hfresh hpm
        rw [hpm] at hv2
        have hrun : runOps s live (PoolOp.pmalloc alloc :: rest) =
            runOps s2 (q :: live) rest := by
          rw [runOps, hpm]
        rw [hrun]
        exact ih s2 (q :: live) htr2 hv2
    | pfree c =>
      rw [validOps, Bool.and_eq_true, decide_eq_true_iff] at hv
      obtain ⟨hc, hv2⟩ := hv
      have htr2 := traceInv_free htr hc
      rw [runOps]
      exact ih _ _ htr2 hv2

/-- C3 (amended to the ordered interface): after any valid matched trace of
`ordered_malloc` / `ordered_free` calls on a fresh pool — every grow served
by a fresh region, every free returning a held chunk, every held chunk freed
back — `release_memory()` releases every region (block list and free list
become empty), returns `true` exactly when a region existed, and resets
`next_size` to `start_size`; an immediately following `release_memory()`
returns `false` and keeps `next_size = start_size`.  The original claim over
plain `malloc`/`free` is refuted by `claim_C3_cex`. -/
theorem claim_C3 (R ns ms : Nat) (ops : List PoolOp) (hR : 0 < R) (hns : 0 < ns)
    (hvalid : validOps (mkPool R ns ms) [] ops = true)
    (hmatched : (runOps (mkPool R ns ms) [] ops).2 = []) :
    (releaseMemory (runOps (mkPool R ns ms) [] ops).1).1 =
      decide ((runOps (mkPool R ns ms) [] ops).1.blocks ≠ []) ∧
    (releaseMemory (runOps (mkPool R ns ms) [] ops).1).2.blocks = [] ∧
    (releaseMemory (runOps (mkPool R ns ms) [] ops).1).2.freeList = [] ∧
    (releaseMemory (runOps (mkPool R ns ms) [] ops).1).2.nextSize =
      (runOps (mkPool R ns ms) [] ops).1.startSize ∧
    (releaseMemory (releaseMemory (runOps (mkPool R ns ms) [] ops).1).2).1 = false ∧
    (releaseMemory (releaseMemory (runOps (mkPool R ns ms) [] ops).1).2).2.nextSize =
      (runOps (mkPool R ns ms) [] ops).1.startSize := by
  have htr := runOps_traceInv ops (mkPool R ns ms) [] (traceInv_mkPool hR hns) hvalid
  rw [hmatched] at htr
  obtain ⟨hinv, -, -, -, hperm⟩ := htr
  rw [List.append_nil] at hperm
  set s1 := (runOps (mkPool R ns ms) [] ops).1 with hs1
  have hP : 0 < allocSize s1.requestedSize := allocSize_pos hinv.1
  have hsort := hinv.2.2.2.1
  have hbord := hinv.2.2.2.2.1
  have hwfall := hinv.2.2.2.2.2.1
  have hsort2 := sortedLt_joinChunks hP hbord hwfall
  haveI : IsAntisymm Nat (· < ·) := ⟨fun a b h1 h2 => absurd h2 (by omega)⟩
  have heq : s1.freeList = joinChunks (allocSize s1.requestedSize) s1.blocks :=
    List.eq_of_perm_of_sorted hperm (List.chain'_iff_pairwise.mp hsort)
      (List.chain'_iff_pairwise.mp hsort2)
  have hloopeq : releaseLoop (allocSize s1.requestedSize) s1.blocks s1.freeList =
      ([], [], decide (s1.blocks ≠ [])) := by
    rw [heq]
    exact releaseLoop_allfree (allocSize s1.requestedSize) hP s1.blocks hbord hwfall
  have hrel1 : releaseMemory s1 =
      (decide (s1.blocks ≠ []),
       { s1 with blocks := [], freeList := [], nextSize := s1.startSize }) := by
    show ((releaseLoop (allocSize s1.requestedSize) s1.blocks s1.freeList).2.2,
          { s1 with
            blocks := (releaseLoop (allocSize s1.requestedSize) s1.blocks s1.freeList).1,
            freeList :=
              (releaseLoop (allocSize s1.requestedSize) s1.blocks s1.freeList).2.1,
            nextSize := s1.startSize }) = _
    rw [hloopeq]
  rw [hrel1]
  refine ⟨rfl, rfl, rfl, rfl, rfl, rfl⟩

theorem claim_C3_witness :
    (releaseMemory (runOps (mkPool 8 2 0) []
        [PoolOp.pmalloc (some 1000), PoolOp.pmalloc none,
         PoolOp.pfree 1000, PoolOp.pfree 1008]).1).1 =
      decide ((runOps (mkPool 8 2 0) []
        [PoolOp.pmalloc (some 1000), PoolOp.pmalloc none,
         PoolOp.pfree 1000, PoolOp.pfree 1008]).1.blocks ≠ []) ∧
    (releaseMemory (runOps (mkPool 8 2 0) []
        [PoolOp.pmalloc (some 1000), PoolOp.pmalloc none,
         PoolOp.pfree 1000, PoolOp.pfree 1008]).1).2.blocks = [] ∧
    (releaseMemory (runOps (mkPool 8 2 0) []
        [PoolOp.pmalloc (some 1000), PoolOp.pmalloc none,
         PoolOp.pfree 1000, PoolOp.pfree 1008]).1).2.freeList = [] ∧
    (releaseMemory (runOps (mkPool 8 2 0) []
        [PoolOp.pmalloc (some 1000), PoolOp.pmalloc none,
         PoolOp.pfree 1000, PoolOp.pfree 1008]).1).2.nextSize =
      (runOps (mkPool 8 2 0) []
        [PoolOp.pmalloc (some 1000), PoolOp.pmalloc none,
         PoolOp.pfree 1000, PoolOp.pfree 1008]).1.startSize ∧
    (releaseMemory (releaseMemory (runOps (mkPool 8 2 0) []
        [PoolOp.pmalloc (some 1000), PoolOp.pmalloc none,
         PoolOp.pfree 1000, PoolOp.pfree 1008]).1).2).1 = false ∧
    (releaseMemory (releaseMemory (runOps (mkPool 8 2 0) []
        [PoolOp.pmalloc (some 1000), PoolOp.pmalloc none,
         PoolOp.pfree 1000, PoolOp.pfree 1008]).1).2).2.nextSize =
      (runOps (mkPool 8 2 0) []
        [PoolOp.pmalloc (some 1000), PoolOp.pmalloc none,
         PoolOp.pfree 1000, PoolOp.pfree 1008]).1.startSize :=
  claim_C3 8 2 0
    [PoolOp.pmalloc (some 1000), PoolOp.pmalloc none,
     PoolOp.pfree 1000, PoolOp.pfree 1008]
    (by decide) (by decide) (by decide) (by decide)

/-- A matched plain `malloc`/`free` sequence after which `release_memory()`
returns `false`: both chunks of the single region are allocated and both are
freed back (in allocation order), yet the unordered frees leave the free
list as `[1008, 1000]` and the lockstep scan fails. -/
theorem claim_C3_cex :
    (poolMalloc (mkPool 8 2 0) (some 1000)).1 = some 1000 ∧
    (poolMalloc (poolMalloc (mkPool 8 2 0) (some 1000)).2 none).1 = some 1008 ∧
    (releaseMemory (poolFree (poolFree
        (poolMalloc (poolMalloc (mkPool 8 2 0) (some 1000)).2 none).2 1000) 1008)).1
      = false := by
  decide

end BoostPool
